import Mathlib

/-!
Verification of the run-identification and run-mutation core of the
`comment-on-docx` repository (scripts/read_document_runs.py and
scripts/docx_comment_helper.py), as a shallow embedding.

Strings are modelled as `List Char`.  An XML `<w:t>` child is a `TNode`
(text plus its `xml:space="preserve"` attribute); an `<w:rPr>` formatting
subtree is an opaque snapshot `RPr` (the code only deep-copies it and the
reader inspects bold/italic); a `<w:r>` element is `RunE`.  Inline content
of a paragraph (`Inline`) covers the tags the two scripts dispatch on:
plain runs, `w:hyperlink` (with its relationship id), `w:ins`, `w:del`,
and any other tag.  Block-level content (`Block`) covers `w:p`, `w:tbl`
(rows of cells, a cell carrying the identity of its `w:tc` element so the
merged-cell deduplication by `id(cell._tc)` can be expressed), `w:sdt`
(with its table-of-contents flag, i.e. whether `w:sdtPr/w:docPartObj` is
present) and other tags.  A document is the list of body children.

Tree mutation (the in-place run split) is rendered functionally: the
splitting functions rebuild the tree along the same walk that
`find_run_by_global_id` performs, splicing the mutated original and the
two freshly inserted sibling runs into the parent's child list exactly
where the source's `parent_element.insert(run_position + 1/2, ...)` puts
them.  The external comment-attachment capability (`doc.add_comment`) is a
function parameter returning `Option Doc`; `none` models the capability
raising an exception, which the source catches.  File output
(`doc.save`) is external I/O and only the derived output path is
modelled.
-/

/-- A `<w:t>` text child: its text and its `xml:space="preserve"` attribute. -/
structure TNode where
  text : List Char
  preserve : Bool
deriving DecidableEq

/-- An opaque `<w:rPr>` formatting subtree snapshot.  The commenter only
deep-copies it verbatim; the reader reads the bold/italic child flags. -/
structure RPr where
  bold : Bool
  italic : Bool
  rest : List Char
deriving DecidableEq

/-- A `<w:r>` run element: optional `<w:rPr>` child and optional `<w:t>` child. -/
structure RunE where
  rPr : Option RPr
  t : Option TNode
deriving DecidableEq

/-- Inline (paragraph-child) content, by the tags the scripts dispatch on. -/
inductive Inline where
  | run : RunE → Inline
  | hyperlink : Option Nat → List Inline → Inline
  | ins : List Inline → Inline
  | del : List Inline → Inline
  | other : Inline

/-- A paragraph is its list of inline children. -/
abbrev Para := List Inline

/-- A table cell: the identity of its `w:tc` element (`id(cell._tc)` in the
source, used for merged-cell deduplication) and its paragraphs. -/
structure Cell where
  tcId : Nat
  paras : List Para

/-- Block-level (body-child) content. `sdt` carries whether the structured
document tag is a table-of-contents container (`w:sdtPr/w:docPartObj`). -/
inductive Block where
  | p : Para → Block
  | tbl : List (List Cell) → Block
  | sdt : Bool → List Block → Block
  | other : Block

/-- A document body: its list of block-level children. -/
abbrev Doc := List Block

/-- `container.findall('w:r')`: the direct `<w:r>` children of an element. -/
def directRuns : List Inline → List RunE
  | [] => []
  | Inline.run r :: cs => r :: directRuns cs
  | _ :: cs => directRuns cs

/-- `docx_comment_helper._iter_all_runs` / its inner `_yield_runs`: yield
`(run_element, is_hyperlink)` for every `<w:r>` in the container, in
document order, descending into `w:hyperlink` (direct run children only)
and recursively into `w:ins`; `w:del` and unknown tags are skipped. -/
def yieldRunsC : List Inline → List (RunE × Bool)
  | [] => []
  | Inline.run r :: cs => (r, false) :: yieldRunsC cs
  | Inline.hyperlink _ hcs :: cs =>
      (directRuns hcs).map (fun r => (r, true)) ++ yieldRunsC cs
  | Inline.ins ics :: cs => yieldRunsC ics ++ yieldRunsC cs
  | Inline.del _ :: cs => yieldRunsC cs
  | Inline.other :: cs => yieldRunsC cs

/-- `hyperlink_rels.get(rid) if hyperlink_rels and rid else None`: URL
resolution for a hyperlink's relationship id (both an empty mapping and an
absent id fall back to `None`). -/
def hyperlinkUrl (rels : List (Nat × List Char)) : Option Nat → Option (List Char)
  | some i => match rels with
              | [] => none
              | _ :: _ => rels.lookup i
  | none => none

/-- `read_document_runs.iter_all_runs`: same walk as `yieldRunsC` but each
run additionally carries the hyperlink URL resolved through the
relationship map. -/
def yieldRunsR (rels : List (Nat × List Char)) : List Inline → List (RunE × Bool × Option (List Char))
  | [] => []
  | Inline.run r :: cs => (r, false, none) :: yieldRunsR rels cs
  | Inline.hyperlink rid hcs :: cs =>
      (directRuns hcs).map (fun r => (r, true, hyperlinkUrl rels rid)) ++ yieldRunsR rels cs
  | Inline.ins ics :: cs => yieldRunsR rels ics ++ yieldRunsR rels cs
  | Inline.del _ :: cs => yieldRunsR rels cs
  | Inline.other :: cs => yieldRunsR rels cs

/-- Per-row merged-cell deduplication: `seen_tc = set()` and `continue` on a
`tc` identity already seen in this row (first occurrence kept). -/
def dedupRow (seen : List Nat) : List Cell → List Cell
  | [] => []
  | c :: cs =>
      if c.tcId ∈ seen then dedupRow seen cs
      else c :: dedupRow (c.tcId :: seen) cs

/-- `concatMap f l`: concatenation of `f` over `l` (generator flattening). -/
def concatMap (f : α → List β) : List α → List β
  | [] => []
  | x :: xs => f x ++ concatMap f xs

/-- The paragraphs a `w:tbl` body child contributes, in traversal order:
rows in order, each row's cells deduplicated per row, each kept cell's
paragraphs in order.  This loop is textually identical in the reader's and
the commenter's walkers. -/
def tblParas (rows : List (List Cell)) : List Para :=
  concatMap (fun row => concatMap Cell.paras (dedupRow [] row)) rows

/-- `docx_comment_helper._iter_document_paragraphs`: walk the body children;
`w:p` yields itself, `w:tbl` yields its (deduplicated) cell paragraphs.
There is no `w:sdt` branch in this file, so structured document tags are
skipped entirely. -/
def iterDocParagraphsC : Doc → List Para
  | [] => []
  | Block.p para :: bs => para :: iterDocParagraphsC bs
  | Block.tbl rows :: bs => tblParas rows ++ iterDocParagraphsC bs
  | Block.sdt _ _ :: bs => iterDocParagraphsC bs
  | Block.other :: bs => iterDocParagraphsC bs

/-- `read_document_runs._iter_sdt_content`: paragraphs and tables inside
`w:sdtContent`, with the same table loop; nested `w:sdt` is not descended. -/
def iterSdtContent : List Block → List Para
  | [] => []
  | Block.p para :: bs => para :: iterSdtContent bs
  | Block.tbl rows :: bs => tblParas rows ++ iterSdtContent bs
  | Block.sdt _ _ :: bs => iterSdtContent bs
  | Block.other :: bs => iterSdtContent bs

/-- `read_document_runs._iter_document_paragraphs`: like the commenter's
walker but with a `w:sdt` branch: table-of-contents tags are skipped, all
other structured document tags have their content spliced in. -/
def iterDocParagraphsR : Doc → List Para
  | [] => []
  | Block.p para :: bs => para :: iterDocParagraphsR bs
  | Block.tbl rows :: bs => tblParas rows ++ iterDocParagraphsR bs
  | Block.sdt isTOC content :: bs =>
      (if isTOC then [] else iterSdtContent content) ++ iterDocParagraphsR bs
  | Block.other :: bs => iterDocParagraphsR bs

/-- The commenter's document-wide run sequence (`_iter_document_paragraphs`
composed with `_iter_all_runs`), in global-ID order. -/
def commenterRuns (d : Doc) : List (RunE × Bool) :=
  concatMap yieldRunsC (iterDocParagraphsC d)

/-- The reader's document-wide run sequence (`_iter_document_paragraphs`
composed with `iter_all_runs`); position in this list is the global run ID
assigned by `read_document_runs`. -/
def readerRuns (rels : List (Nat × List Char)) (d : Doc) : List (RunE × Bool × Option (List Char)) :=
  concatMap (yieldRunsR rels) (iterDocParagraphsR d)

/-- The counter scan inside `find_run_by_global_id`: walk the runs with a
counter, returning the element once the counter equals the target ID. -/
def lookupRun : List (RunE × Bool) → Nat → Nat → Option (RunE × Bool)
  | [], _, _ => none
  | x :: xs, counter, gid => if counter = gid then some x else lookupRun xs (counter + 1) gid

/-- `docx_comment_helper.find_run_by_global_id`: replay the commenter's
document traversal, counting runs, and return the run element (and its
hyperlink flag) whose position equals the requested global ID. -/
def find_run_by_global_id (d : Doc) (gid : Nat) : Option (RunE × Bool) :=
  lookupRun (commenterRuns d) 0 gid

/-- Per-character lowering, modelling `str.lower()` in the ASCII range. -/
def lowerStr (s : List Char) : List Char := s.map Char.toLower

/-- `str.find(sub)`: index of the first occurrence of `sub` in `hay`
(`none` for Python's `-1`).  The empty string is found at index 0. -/
def strFind (hay sub : List Char) : Option Nat :=
  match hay with
  | [] => if sub.isEmpty then some 0 else none
  | _ :: rest =>
      if sub.isPrefixOf hay then some 0
      else (strFind rest sub).map (· + 1)

/-- `run_element.findtext('w:t', default='')`: the text of the run's
`<w:t>` child, or the empty string when the child is absent. -/
def runText (r : RunE) : List Char :=
  match r.t with
  | some tn => tn.text
  | none => []

/-- The element-local part of `docx_comment_helper.split_run_at_text`:
find the first case-insensitive occurrence of `subset_text` in the run's
text, partition the text into before/target/after spans (slicing the
original text, so casing is preserved), build the target and after runs
with a deep copy of the original `<w:rPr>` (when present) and an
`xml:space="preserve"` `<w:t>`, and mutate the original run's `<w:t>` (when
present) to the before span.  Returns `(original, target, after)`. -/
def split_run_at_text (r : RunE) (subset_text : List Char) : Option (RunE × RunE × RunE) :=
  let text := runText r
  match strFind (lowerStr text) (lowerStr subset_text) with
  | none => none
  | some start_idx =>
      let end_idx := start_idx + subset_text.length
      let before_text := text.take start_idx
      let target_text := (text.drop start_idx).take subset_text.length
      let after_text := text.drop end_idx
      let target_run : RunE := { rPr := r.rPr, t := some { text := target_text, preserve := true } }
      let after_run : RunE := { rPr := r.rPr, t := some { text := after_text, preserve := true } }
      let orig : RunE := { r with t := r.t.map (fun tn => { tn with text := before_text }) }
      some (orig, target_run, after_run)

/-- Python `list.insert(n, a)`: insert before position `n`, appending when
`n` is beyond the end. -/
def listInsert (n : Nat) (a : α) : List α → List α
  | [] => [a]
  | x :: xs =>
      match n with
      | 0 => a :: x :: xs
      | m + 1 => x :: listInsert m a xs

/-- `split_run_at_text` seen from the parent element: the run sits at
position `j` of the parent's child list (`list(parent_element).index(run_element)`);
the original child is mutated in place and the target and after runs are
inserted at positions `j + 1` and `j + 2`.  Returns the new child list and
the target element. -/
def split_run_in_parent (children : List Inline) (j : Nat) (subset_text : List Char) : Option (List Inline × RunE) :=
  match children[j]? with
  | some (Inline.run r) =>
      match split_run_at_text r subset_text with
      | none => none
      | some (o, tg, a) =>
          some (listInsert (j + 2) (Inline.run a)
                  (listInsert (j + 1) (Inline.run tg) (children.set j (Inline.run o))), tg)
  | _ => none

/-- Split the `k`-th direct `<w:r>` child of a `w:hyperlink` element in
place (the parent of the located run is the hyperlink element itself). -/
def splitHyp (s : List Char) : List Inline → Nat → Option (List Inline × RunE)
  | [], _ => none
  | c :: cs, k =>
      match c with
      | Inline.run r =>
          if k = 0 then
            match split_run_at_text r s with
            | none => none
            | some (o, tg, a) => some (Inline.run o :: Inline.run tg :: Inline.run a :: cs, tg)
          else (splitHyp s cs (k - 1)).map (fun pr => (c :: pr.1, pr.2))
      | _ => (splitHyp s cs k).map (fun pr => (c :: pr.1, pr.2))

/-- Split the `k`-th run (in `_iter_all_runs` order) of an inline child
list in place, splicing the three fragments into the child list of the
run's actual parent (the paragraph, the enclosing `w:hyperlink`, or the
enclosing `w:ins`), exactly where `split_run_at_text` inserts them. -/
def splitRunsInlines (s : List Char) : List Inline → Nat → Option (List Inline × RunE)
  | [], _ => none
  | c :: cs, k =>
      match c with
      | Inline.run r =>
          if k = 0 then
            match split_run_at_text r s with
            | none => none
            | some (o, tg, a) => some (Inline.run o :: Inline.run tg :: Inline.run a :: cs, tg)
          else (splitRunsInlines s cs (k - 1)).map (fun pr => (c :: pr.1, pr.2))
      | Inline.hyperlink rid hcs =>
          let n := (directRuns hcs).length
          if k < n then (splitHyp s hcs k).map (fun pr => (Inline.hyperlink rid pr.1 :: cs, pr.2))
          else (splitRunsInlines s cs (k - n)).map (fun pr => (c :: pr.1, pr.2))
      | Inline.ins ics =>
          let n := (yieldRunsC ics).length
          if k < n then (splitRunsInlines s ics k).map (fun pr => (Inline.ins pr.1 :: cs, pr.2))
          else (splitRunsInlines s cs (k - n)).map (fun pr => (c :: pr.1, pr.2))
      | Inline.del dcs =>
          (splitRunsInlines s cs k).map (fun pr => (Inline.del dcs :: pr.1, pr.2))
      | Inline.other =>
          (splitRunsInlines s cs k).map (fun pr => (Inline.other :: pr.1, pr.2))

/-- Split the `k`-th run of a paragraph list, counting with the walker. -/
def splitParas (s : List Char) : List Para → Nat → Option (List Para × RunE)
  | [], _ => none
  | p :: ps, k =>
      let n := (yieldRunsC p).length
      if k < n then (splitRunsInlines s p k).map (fun pr => (pr.1 :: ps, pr.2))
      else (splitParas s ps (k - n)).map (fun pr => (p :: pr.1, pr.2))

/-- The view of one cell after the `w:tc` element with identity `t` has
been mutated in place to hold the paragraphs `ps`: a cell referencing that
element (the cell itself, or any merged-cell alias of it that `row.cells`
re-yields) shows the new content; other cells are untouched. -/
def mapTcCell (t : Nat) (ps : List Para) (c : Cell) : Cell :=
  if c.tcId = t then { c with paras := ps } else c

/-- The tree-wide effect of mutating the `w:tc` element with identity `t`
in place: every cell with that identity, in any row of any table (body or
structured-document-tag content), now shows the new paragraphs.  This
models lxml aliasing: vertically merged cells share one `_tc` element, so
one in-place edit is visible at every position that re-yields it. -/
def mapTcContent (t : Nat) (ps : List Para) : Doc → Doc
  | [] => []
  | Block.p para :: bs => Block.p para :: mapTcContent t ps bs
  | Block.tbl rows :: bs =>
      Block.tbl (rows.map (fun row => row.map (mapTcCell t ps))) :: mapTcContent t ps bs
  | Block.sdt isTOC content :: bs =>
      Block.sdt isTOC (mapTcContent t ps content) :: mapTcContent t ps bs
  | Block.other :: bs => Block.other :: mapTcContent t ps bs

/-- Locate the `k`-th run among a table row's cells (honouring the per-row
merged-cell deduplication, exactly as the walk that assigned the ID) and
compute the split inside the containing cell: returns the identity of the
containing `w:tc` element together with that element's new paragraph
content and the target run.  The tree mutation itself is the in-place
update of that shared element (`mapTcContent`). -/
def splitCellsLoc (s : List Char) (seen : List Nat) :
    List Cell → Nat → Option ((Nat × List Para) × RunE)
  | [], _ => none
  | c :: cs, k =>
      if c.tcId ∈ seen then splitCellsLoc s seen cs k
      else
        let n := (concatMap yieldRunsC c.paras).length
        if k < n then (splitParas s c.paras k).map (fun pr => ((c.tcId, pr.1), pr.2))
        else splitCellsLoc s (c.tcId :: seen) cs (k - n)

/-- Locate the `k`-th run among a table's rows and compute the split. -/
def splitRowsLoc (s : List Char) : List (List Cell) → Nat → Option ((Nat × List Para) × RunE)
  | [], _ => none
  | row :: rows, k =>
      let n := (concatMap yieldRunsC (concatMap Cell.paras (dedupRow [] row))).length
      if k < n then splitCellsLoc s [] row k
      else splitRowsLoc s rows (k - n)

/-- Re-attach a passed-over block in front of a located split result. -/
def consBlockLoc (b : Block) : Sum Doc (Nat × List Para) × RunE → Sum Doc (Nat × List Para) × RunE
  | (Sum.inl bs', tg) => (Sum.inl (b :: bs'), tg)
  | (Sum.inr tp, tg) => (Sum.inr tp, tg)

/-- Walk the body children exactly as the commenter's walker does
(structured document tags contribute no runs and are passed over) to the
run with the given remaining global ID, and compute the split: inside a
body paragraph the paragraph's new child list is spliced in directly
(`Sum.inl`), inside a table cell the result is the identity of the
containing `w:tc` element with its new content (`Sum.inr`), to be applied
through `mapTcContent` so that merged-cell aliases see it too. -/
def splitBlocksLoc (s : List Char) : Doc → Nat → Option (Sum Doc (Nat × List Para) × RunE)
  | [], _ => none
  | b :: bs, k =>
      match b with
      | Block.p para =>
          let n := (yieldRunsC para).length
          if k < n then
            (splitRunsInlines s para k).map (fun pr => (Sum.inl (Block.p pr.1 :: bs), pr.2))
          else (splitBlocksLoc s bs (k - n)).map (consBlockLoc b)
      | Block.tbl rows =>
          let n := (concatMap yieldRunsC (tblParas rows)).length
          if k < n then (splitRowsLoc s rows k).map (fun pr => (Sum.inr pr.1, pr.2))
          else (splitBlocksLoc s bs (k - n)).map (consBlockLoc b)
      | Block.sdt isTOC content => (splitBlocksLoc s bs k).map (consBlockLoc (Block.sdt isTOC content))
      | Block.other => (splitBlocksLoc s bs k).map (consBlockLoc Block.other)

/-- The whole-document effect of `find_run_by_global_id` followed by
`split_run_at_text` on the found element: the document with the in-place
split applied.  A split inside a body paragraph rewrites that paragraph's
child list; a split inside a table cell mutates the shared `w:tc` element,
which every merged-cell alias of that element then shows. -/
def splitDocAt (d : Doc) (gid : Nat) (s : List Char) : Option (Doc × RunE) :=
  match splitBlocksLoc s d gid with
  | none => none
  | some (Sum.inl d', tg) => some (d', tg)
  | some (Sum.inr (t, ps), tg) => some (mapTcContent t ps d, tg)

/-- The `tc` identities of each table row in the document, row by row
(body tables and tables inside structured document tags alike). -/
def docTcRows : Doc → List (List Nat)
  | [] => []
  | Block.p _ :: bs => docTcRows bs
  | Block.tbl rows :: bs => rows.map (fun row => row.map Cell.tcId) ++ docTcRows bs
  | Block.sdt _ content :: bs => docTcRows content ++ docTcRows bs
  | Block.other :: bs => docTcRows bs

/-- No `w:tc` element is shared between two different table rows: the
document has no vertically merged cells, so `row.cells` never re-yields an
element already enumerated in an earlier row and every run is visited at
most once.  (Horizontal merges, which repeat a `tc` within one row, are
still allowed - the per-row deduplication already skips those.) -/
def noCrossRowShare (d : Doc) : Prop :=
  List.Pairwise (fun r1 r2 => ∀ x ∈ r1, x ∉ r2) (docTcRows d)

/-- Python truthiness of the optional `subset_text` argument: both `None`
and the empty string are falsy (`if subset_text:`). -/
def isTruthy : Option (List Char) → Bool
  | none => false
  | some s => !s.isEmpty

/-- `run_ids` normalisation at the top of `add_comment`: a single int
becomes a one-element list. -/
def normalizeIds : Sum Nat (List Nat) → List Nat
  | Sum.inl n => [n]
  | Sum.inr l => l

/-- `_has_text` inside `add_comment`: `bool(text.strip())`, i.e. the run's
effective text has at least one non-whitespace character. -/
def hasText (r : RunE) : Bool :=
  (runText r).any (fun c => !c.isWhitespace)

/-- The external comment-attachment capability (`doc.add_comment` of the
container library): given the document, the non-empty target runs and the
comment text/author/initials, it returns the updated document, or `none`
when it raises. -/
def Attach : Type :=
  Doc → List RunE → List Char → List Char → List Char → Option Doc

/-- The run-resolution loop of `add_comment`: for each requested global ID
in order, locate the run in the current document; with a truthy
`subset_text`, split that run in place first and keep the target fragment,
threading the mutated document through the rest of the loop.  `none`
models the loop `return False` paths (ID not found, sub-string absent). -/
def resolveTargets (d : Doc) (ids : List Nat) (subset_text : Option (List Char)) : Option (Doc × List RunE) :=
  match ids with
  | [] => some (d, [])
  | id :: rest =>
      match find_run_by_global_id d id with
      | none => none
      | some (r, _is_hyp) =>
          if isTruthy subset_text then
            match splitDocAt d id (subset_text.getD []) with
            | none => none
            | some (d', tg) =>
                (resolveTargets d' rest subset_text).map (fun pr => (pr.1, tg :: pr.2))
          else
            (resolveTargets d rest subset_text).map (fun pr => (pr.1, r :: pr.2))

/-- `docx_comment_helper.add_comment`: normalise `run_ids`, reject an empty
list and a truthy `subset_text` over more than one run, resolve (and
optionally split) every target, drop runs whose text is empty after
stripping, fail when none is left, and otherwise delegate to the external
attachment capability, catching its exception as a `false` result.  The
returned document is the tree as the caller observes it afterwards. -/
def add_comment (attach : Attach) (doc : Doc) (run_ids : Sum Nat (List Nat))
    (text : List Char) (subset_text : Option (List Char))
    (author initials : List Char) : Doc × Bool :=
  let ids := normalizeIds run_ids
  if ids.isEmpty then (doc, false)
  else if isTruthy subset_text = true ∧ 1 < ids.length then (doc, false)
  else
    match resolveTargets doc ids subset_text with
    | none => (doc, false)
    | some (d1, targets) =>
        let non_empty_runs := targets.filter hasText
        if non_empty_runs.isEmpty then (d1, false)
        else
          match attach d1 non_empty_runs text author initials with
          | some d2 => (d2, true)
          | none => (d1, false)

/-- One comment request of a batch (`comments` list entry dict). -/
structure CommentReq where
  run_ids : Sum Nat (List Nat)
  text : List Char
  subset_text : Option (List Char)

/-- `max(ids) if isinstance(ids, list) else ids`.  (Python raises on an
empty list; for the non-empty lists that constitute well-formed requests
the fold below agrees with `max`.) -/
def maxId (c : CommentReq) : Nat :=
  match c.run_ids with
  | Sum.inl n => n
  | Sum.inr l => l.foldl max 0

/-- `sort_key` inside `add_comments_batch`: `(-max_id, -has_subset)`. -/
def sort_key (c : CommentReq) : Int × Int :=
  (-(maxId c : Int), -(if isTruthy c.subset_text then (1 : Int) else 0))

/-- Lexicographic comparison of Python tuples of two ints. -/
def tupleLe (p q : Int × Int) : Bool :=
  decide (p.1 < q.1 ∨ (p.1 = q.1 ∧ p.2 ≤ q.2))

/-- `sorted(comments, key=sort_key)`: stable sort by the key tuple. -/
def sortBatch (cs : List CommentReq) : List CommentReq :=
  cs.mergeSort (fun a b => tupleLe (sort_key a) (sort_key b))

/-- The application loop of `add_comments_batch`: apply `add_comment` to
each request in order on the threaded document, counting successes and
failures. -/
def processAll (attach : Attach) (doc : Doc) (author initials : List Char) :
    List CommentReq → Doc × Nat × Nat
  | [] => (doc, 0, 0)
  | c :: cs =>
      let res := add_comment attach doc c.run_ids c.text c.subset_text author initials
      let rest := processAll attach res.1 author initials cs
      (rest.1, (if res.2 then rest.2.1 + 1 else rest.2.1), (if res.2 then rest.2.2 else rest.2.2 + 1))

/-- `docx_comment_helper.add_comments_batch`: an empty batch yields
`(0, 0)`; otherwise the requests are sorted by `sort_key` and applied in
that order, returning the final document with the success/failure counts. -/
def add_comments_batch (attach : Attach) (doc : Doc) (comments : List CommentReq)
    (author initials : List Char) : Doc × Nat × Nat :=
  if comments.isEmpty then (doc, 0, 0)
  else processAll attach doc author initials (sortBatch comments)

/-- Split `s` at the last occurrence of `c`: `some (before, after)` with
`c` removed, `none` when `c` does not occur. -/
def splitLastChar (c : Char) : List Char → Option (List Char × List Char)
  | [] => none
  | x :: xs =>
      match splitLastChar c xs with
      | some (pre, post) => some (x :: pre, post)
      | none => if x = c then some ([], xs) else none

/-- `PurePath.name`: the final path component (after the last slash). -/
def pyBasename (s : List Char) : List Char :=
  match splitLastChar '/' s with
  | some (_, post) => post
  | none => s

/-- `PurePath.parent` rendered as a string: the part before the last
slash, `"/"` when that part is empty, `"."` when there is no slash. -/
def pyParent (s : List Char) : List Char :=
  match splitLastChar '/' s with
  | some (pre, _) => if pre.isEmpty then ['/'] else pre
  | none => ['.']

/-- `PurePath.stem`: the final component without its suffix; the suffix is
the part after the last dot provided that dot is neither the first nor the
last character of the name. -/
def pyStem (name : List Char) : List Char :=
  match splitLastChar '.' name with
  | some (pre, post) => if pre.isEmpty || post.isEmpty then name else pre
  | none => name

/-- `str(parent / name)`: join a parent directory string and a file name. -/
def pyJoin (parent name : List Char) : List Char :=
  if parent = ['.'] then name
  else if parent = ['/'] then '/' :: name
  else parent ++ '/' :: name

/-- The default `suffix` argument of `save_with_suffix`: `"claude commented"`. -/
def default_suffix : List Char :=
  ['c', 'l', 'a', 'u', 'd', 'e', ' ', 'c', 'o', 'm', 'm', 'e', 'n', 't', 'e', 'd']

/-- `".docx"` — the extension hard-coded in the output filename format. -/
def dotDocx : List Char := ['.', 'd', 'o', 'c', 'x']

/-- `docx_comment_helper.save_with_suffix`, filename derivation only (the
actual `doc.save` is external I/O): the output path is
`original_file.parent / f"{stem} - {suffix}.docx"`. -/
def save_with_suffix (original_path : List Char) (suffix : List Char) : List Char :=
  let stem := pyStem (pyBasename original_path)
  let output_filename := stem ++ [' ', '-', ' '] ++ suffix ++ dotDocx
  pyJoin (pyParent original_path) output_filename

/-- The attachment capability that always succeeds and adds the comment
markers without touching any run (the success behaviour of the external
collaborator, as far as run traversal is concerned). -/
def attachOk : Attach := fun d _ _ _ _ => some d

/-- `spliceAt l k M`: the list `l` with its element at position `k`
replaced by the block `M` — the shape of a child list after an in-place
split (mutated original plus the two inserted siblings). -/
def spliceAt (l : List β) (k : Nat) (M : List β) : List β :=
  l.take k ++ M ++ l.drop (k + 1)

/-- Runs contributed by a list of paragraphs, commenter's enumeration. -/
def parasRuns (ps : List Para) : List (RunE × Bool) :=
  concatMap yieldRunsC ps

/-- Runs contributed by a row's cells under the per-row deduplication. -/
def cellsRunsSeen (seen : List Nat) : List Cell → List (RunE × Bool)
  | [] => []
  | c :: cs =>
      if c.tcId ∈ seen then cellsRunsSeen seen cs
      else parasRuns c.paras ++ cellsRunsSeen (c.tcId :: seen) cs

/-- Runs contributed by a table's rows. -/
def rowsRuns : List (List Cell) → List (RunE × Bool)
  | [] => []
  | row :: rows => cellsRunsSeen [] row ++ rowsRuns rows

/-- Runs contributed by body children, following the commenter's walker
recursion block by block. -/
def blocksRuns : Doc → List (RunE × Bool)
  | [] => []
  | Block.p para :: bs => yieldRunsC para ++ blocksRuns bs
  | Block.tbl rows :: bs => rowsRuns rows ++ blocksRuns bs
  | Block.sdt _ _ :: bs => blocksRuns bs
  | Block.other :: bs => blocksRuns bs

/-- Concrete run `"Hello World"` (bold formatting) for evaluating the
splitter at an input. -/
def rW2 : RunE :=
  ⟨some ⟨true, false, []⟩, some ⟨['H', 'e', 'l', 'l', 'o', ' ', 'W', 'o', 'r', 'l', 'd'], true⟩⟩

/-- A one-run parent child list around `rW2`. -/
def csW2 : List Inline := [Inline.run rW2]

/-- The sub-string `"world"` (lower case, matching case-insensitively). -/
def sW2 : List Char := ['w', 'o', 'r', 'l', 'd']

/-- A two-run document: paragraph with runs `"a"` and `"ab"`. -/
def dW3 : Doc :=
  [Block.p [Inline.run ⟨none, some ⟨['a'], true⟩⟩, Inline.run ⟨none, some ⟨['a', 'b'], false⟩⟩]]

/-- `dW3` after splitting global run 1 at `"b"`. -/
def dW3x : Doc :=
  [Block.p [Inline.run ⟨none, some ⟨['a'], true⟩⟩, Inline.run ⟨none, some ⟨['a'], false⟩⟩,
    Inline.run ⟨none, some ⟨['b'], true⟩⟩, Inline.run ⟨none, some ⟨[], true⟩⟩]]

/-- The target fragment produced by that split. -/
def tgW3 : RunE := ⟨none, some ⟨['b'], true⟩⟩

/-- A document whose body starts with a non-table-of-contents structured
document tag containing the run `"X"`, followed by a plain paragraph with
the run `"Y"`. -/
def dC1 : Doc :=
  [Block.sdt false [Block.p [Inline.run ⟨none, some ⟨['X'], true⟩⟩]],
   Block.p [Inline.run ⟨none, some ⟨['Y'], true⟩⟩]]

/-- A one-run document with text `"a b"`. -/
def dC5 : Doc := [Block.p [Inline.run ⟨none, some ⟨['a', ' ', 'b'], true⟩⟩]]

/-- A one-run document whose only run is the single space `" "`. -/
def dW6 : Doc := [Block.p [Inline.run ⟨none, some ⟨[' '], true⟩⟩]]

/-- A sub-string request (max ID 5, with split text). -/
def reqA : CommentReq := ⟨Sum.inl 5, [], some ['x']⟩

/-- A range request (max ID 4, no split text). -/
def reqB : CommentReq := ⟨Sum.inr [3, 4], [], none⟩

/-- A non-split request tying with `reqA` on max ID 5. -/
def reqC : CommentReq := ⟨Sum.inl 5, [], none⟩

/-- A batch given in an order the scheduler must rework. -/
def csW4 : List CommentReq := [reqB, reqC, reqA]

/-- The path `"docs/report.docm"` (a non-`.docx` extension). -/
def pDocm : List Char :=
  ['d', 'o', 'c', 's', '/', 'r', 'e', 'p', 'o', 'r', 't', '.', 'd', 'o', 'c', 'm']

/-- The shared run `"M"` of a vertically merged cell. -/
def runM : RunE := ⟨none, some ⟨['M'], true⟩⟩

/-- A 2-by-2 table whose first column is vertically merged: both rows of
`row.cells` yield the same `w:tc` element (identity 0) holding run `"M"`;
the second column holds runs `"A"` (row 0) and `"B"` (row 1).  The
traversal numbers M=0, A=1, M=2, B=3 - the shared element is enumerated
once per row. -/
def dV : Doc :=
  [Block.tbl
    [[⟨0, [[Inline.run runM]]⟩, ⟨1, [[Inline.run ⟨none, some ⟨['A'], true⟩⟩]]⟩],
     [⟨0, [[Inline.run runM]]⟩, ⟨2, [[Inline.run ⟨none, some ⟨['B'], true⟩⟩]]⟩]]]

/-- The shared cell's content after splitting its run at `"M"`. -/
def psM : List Para :=
  [[Inline.run ⟨none, some ⟨[], true⟩⟩, Inline.run ⟨none, some ⟨['M'], true⟩⟩,
    Inline.run ⟨none, some ⟨[], true⟩⟩]]

/-- `dV` after splitting global run 2 at `"M"`: the mutation of the shared
`w:tc` element is visible in both rows that alias it. -/
def dVx : Doc :=
  [Block.tbl
    [[⟨0, psM⟩, ⟨1, [[Inline.run ⟨none, some ⟨['A'], true⟩⟩]]⟩],
     [⟨0, psM⟩, ⟨2, [[Inline.run ⟨none, some ⟨['B'], true⟩⟩]]⟩]]]

theorem concatMap_append (f : α → List β) (xs ys : List α) :
    concatMap f (xs ++ ys) = concatMap f xs ++ concatMap f ys := by
  induction xs with
  | nil => simp [concatMap]
  | cons x xs ih => simp [concatMap, ih]

theorem getq_append_add (P l : List α) (k : Nat) : (P ++ l)[P.length + k]? = l[k]? := by
  induction P with
  | nil => simp
  | cons x P ih => simpa [List.length_cons, Nat.succ_add] using ih

theorem getq_append_lt (A B : List α) (k : Nat) (h : k < A.length) :
    (A ++ B)[k]? = A[k]? := by
  induction A generalizing k with
  | nil => simp at h
  | cons a A ih =>
      cases k with
      | zero => simp
      | succ k =>
          simp only [List.cons_append, List.getElem?_cons_succ]
          exact ih k (by simpa using h)

theorem take_append_le (A B : List α) (k : Nat) (h : k ≤ A.length) :
    (A ++ B).take k = A.take k := by
  induction A generalizing k with
  | nil =>
      have hk : k = 0 := by simpa using h
      subst hk; simp
  | cons a A ih =>
      cases k with
      | zero => simp
      | succ k =>
          simp only [List.cons_append, List.take_succ_cons]
          rw [ih k (by simpa using h)]

theorem drop_append_le (A B : List α) (k : Nat) (h : k ≤ A.length) :
    (A ++ B).drop k = A.drop k ++ B := by
  induction A generalizing k with
  | nil =>
      have hk : k = 0 := by simpa using h
      subst hk; simp
  | cons a A ih =>
      cases k with
      | zero => simp
      | succ k =>
          simp only [List.cons_append, List.drop_succ_cons]
          exact ih k (by simpa using h)

theorem getq_take_lt (l : List α) (K i : Nat) (h : i < K) : (l.take K)[i]? = l[i]? := by
  induction l generalizing K i with
  | nil => simp
  | cons x l ih =>
      cases K with
      | zero => omega
      | succ K =>
          cases i with
          | zero => simp
          | succ i =>
              simp only [List.take_succ_cons, List.getElem?_cons_succ]
              exact ih K i (by omega)

theorem spliceAt_cons (x : α) (l M : List α) (k : Nat) :
    spliceAt (x :: l) (k + 1) M = x :: spliceAt l k M := by
  simp [spliceAt]

theorem splice_prepend (P l l' M : List α) (k : Nat) (h : l' = spliceAt l k M) :
    P ++ l' = spliceAt (P ++ l) (P.length + k) M := by
  induction P with
  | nil => simpa using h
  | cons x P ih =>
      simp only [List.cons_append, List.length_cons]
      rw [show P.length + 1 + k = (P.length + k) + 1 by omega, spliceAt_cons, ← ih]

theorem splice_append (A B M A' : List α) (k : Nat) (h : k < A.length)
    (hs : A' = spliceAt A k M) : A' ++ B = spliceAt (A ++ B) k M := by
  subst hs
  unfold spliceAt
  rw [take_append_le A B k (Nat.le_of_lt h), drop_append_le A B (k + 1) h]
  simp

theorem getq_map_eq (f : α → β) (l : List α) (k : Nat) : (l.map f)[k]? = (l[k]?).map f := by
  induction l generalizing k with
  | nil => simp
  | cons x l ih => cases k <;> simp [ih]

theorem spliceAt_map (f : α → β) (l M : List α) (k : Nat) :
    (spliceAt l k M).map f = spliceAt (l.map f) k (M.map f) := by
  simp [spliceAt, List.map_take, List.map_drop]

theorem getq_spliceAt_lt (l M : List α) (K i : Nat) (hi : i < K) (hK : K < l.length) :
    (spliceAt l K M)[i]? = l[i]? := by
  unfold spliceAt
  rw [List.append_assoc, getq_append_lt (l.take K) _ i (by simp [List.length_take]; omega)]
  exact getq_take_lt l K i hi

theorem getq_spliceAt_self (l : List α) (m : α) (M : List α) (K : Nat) (hK : K < l.length) :
    (spliceAt l K (m :: M))[K]? = some m := by
  unfold spliceAt
  have hlen : (l.take K).length = K := by simp [List.length_take]; omega
  have := getq_append_add (l.take K) ((m :: M) ++ l.drop (K + 1)) 0
  rw [hlen] at this
  simpa using this

theorem lookupRun_eq (l : List (RunE × Bool)) :
    ∀ counter gid, lookupRun l counter gid =
      if counter ≤ gid then l[gid - counter]? else none := by
  induction l with
  | nil => intro counter gid; simp [lookupRun]
  | cons x xs ih =>
      intro counter gid
      simp only [lookupRun]
      by_cases hceg : counter = gid
      · subst hceg
        simp
      · rw [if_neg hceg, ih (counter + 1) gid]
        by_cases hle : counter ≤ gid
        · have h1 : counter + 1 ≤ gid := by omega
          rw [if_pos h1, if_pos hle]
          have : gid - counter = (gid - (counter + 1)) + 1 := by omega
          rw [this]
          simp
        · rw [if_neg (by omega), if_neg hle]

theorem find_eq_getq (d : Doc) (gid : Nat) :
    find_run_by_global_id d gid = (commenterRuns d)[gid]? := by
  simp [find_run_by_global_id, lookupRun_eq]

theorem yieldRunsC_append (xs ys : List Inline) :
    yieldRunsC (xs ++ ys) = yieldRunsC xs ++ yieldRunsC ys := by
  induction xs with
  | nil => simp [yieldRunsC]
  | cons c cs ih =>
      cases c <;> simp [yieldRunsC, ih]

theorem yieldRunsR_append (rels : List (Nat × List Char)) (xs ys : List Inline) :
    yieldRunsR rels (xs ++ ys) = yieldRunsR rels xs ++ yieldRunsR rels ys := by
  induction xs with
  | nil => simp [yieldRunsR]
  | cons c cs ih =>
      cases c <;> simp [yieldRunsR, ih]

theorem cellsRuns_bridge (row : List Cell) : ∀ seen : List Nat,
    concatMap yieldRunsC (concatMap Cell.paras (dedupRow seen row)) = cellsRunsSeen seen row := by
  induction row with
  | nil => intro seen; simp [dedupRow, concatMap, cellsRunsSeen]
  | cons c cs ih =>
      intro seen
      by_cases hmem : c.tcId ∈ seen
      · simp [dedupRow, hmem, cellsRunsSeen, ih]
      · simp [dedupRow, hmem, cellsRunsSeen, concatMap, concatMap_append, ih, parasRuns]

theorem tblRuns_bridge (rows : List (List Cell)) :
    concatMap yieldRunsC (tblParas rows) = rowsRuns rows := by
  induction rows with
  | nil => simp [tblParas, concatMap, rowsRuns]
  | cons row rows ih =>
      simp only [tblParas, concatMap, concatMap_append, rowsRuns]
      rw [← ih, cellsRuns_bridge row []]
      simp [tblParas]

theorem commenterRuns_eq (d : Doc) : commenterRuns d = blocksRuns d := by
  induction d with
  | nil => simp [commenterRuns, iterDocParagraphsC, concatMap, blocksRuns]
  | cons b bs ih =>
      cases b with
      | p para =>
          simp only [commenterRuns, iterDocParagraphsC, concatMap, blocksRuns] at *
          rw [ih]
      | tbl rows =>
          simp only [commenterRuns, iterDocParagraphsC, blocksRuns, concatMap_append] at *
          rw [ih, tblRuns_bridge]
      | sdt isTOC content =>
          simp only [commenterRuns, iterDocParagraphsC, blocksRuns] at *
          exact ih
      | other =>
          simp only [commenterRuns, iterDocParagraphsC, blocksRuns] at *
          exact ih

theorem splitHyp_spec (s : List Char) (hcs : List Inline) :
    ∀ (k : Nat) (hcs' : List Inline) (tg : RunE),
    splitHyp s hcs k = some (hcs', tg) →
    ∃ r o a, (directRuns hcs)[k]? = some r ∧ split_run_at_text r s = some (o, tg, a) ∧
      directRuns hcs' = spliceAt (directRuns hcs) k [o, tg, a] := by
  induction hcs with
  | nil => intro k hcs' tg h; simp [splitHyp] at h
  | cons c cs ih =>
      intro k hcs' tg h
      cases c with
      | run r =>
          by_cases hk : k = 0
          · subst hk
            cases hsp : split_run_at_text r s with
            | none =>
                have hval : splitHyp s (Inline.run r :: cs) 0 = none := by
                  simp [splitHyp, hsp]
                rw [hval] at h
                exact absurd h (by simp)
            | some otga =>
                obtain ⟨o, tg0, a⟩ := otga
                have hval : splitHyp s (Inline.run r :: cs) 0 =
                    some (Inline.run o :: Inline.run tg0 :: Inline.run a :: cs, tg0) := by
                  simp [splitHyp, hsp]
                rw [hval] at h
                injection h with h1
                injection h1 with hlist htg
                subst htg
                refine ⟨r, o, a, by simp [directRuns], hsp, ?_⟩
                rw [← hlist]
                simp [directRuns, spliceAt]
          · simp only [splitHyp, if_neg hk, Option.map_eq_some'] at h
            obtain ⟨pr, hpr, heq⟩ := h
            cases heq
            obtain ⟨r', o, a, hget, hsp, hsplice⟩ := ih (k - 1) pr.1 pr.2 hpr
            obtain ⟨k', rfl⟩ : ∃ k', k = k' + 1 := ⟨k - 1, by omega⟩
            simp only [Nat.add_sub_cancel] at hget hsplice
            refine ⟨r', o, a, by simpa [directRuns] using hget, hsp, ?_⟩
            simp only [directRuns]
            rw [hsplice, ← spliceAt_cons]
      | hyperlink rid hhcs =>
          simp only [splitHyp, Option.map_eq_some'] at h
          obtain ⟨pr, hpr, heq⟩ := h
          cases heq
          obtain ⟨r', o, a, hget, hsp, hsplice⟩ := ih k pr.1 pr.2 hpr
          exact ⟨r', o, a, by simpa [directRuns] using hget, hsp, by simpa [directRuns] using hsplice⟩
      | ins ics =>
          simp only [splitHyp, Option.map_eq_some'] at h
          obtain ⟨pr, hpr, heq⟩ := h
          cases heq
          obtain ⟨r', o, a, hget, hsp, hsplice⟩ := ih k pr.1 pr.2 hpr
          exact ⟨r', o, a, by simpa [directRuns] using hget, hsp, by simpa [directRuns] using hsplice⟩
      | del dcs =>
          simp only [splitHyp, Option.map_eq_some'] at h
          obtain ⟨pr, hpr, heq⟩ := h
          cases heq
          obtain ⟨r', o, a, hget, hsp, hsplice⟩ := ih k pr.1 pr.2 hpr
          exact ⟨r', o, a, by simpa [directRuns] using hget, hsp, by simpa [directRuns] using hsplice⟩
      | other =>
          simp only [splitHyp, Option.map_eq_some'] at h
          obtain ⟨pr, hpr, heq⟩ := h
          cases heq
          obtain ⟨r', o, a, hget, hsp, hsplice⟩ := ih k pr.1 pr.2 hpr
          exact ⟨r', o, a, by simpa [directRuns] using hget, hsp, by simpa [directRuns] using hsplice⟩

theorem splitInl_spec (s : List Char) (cs0 : List Inline) (k0 : Nat) :
    ∀ (cs' : List Inline) (tg : RunE),
    splitRunsInlines s cs0 k0 = some (cs', tg) →
    ∃ r b o a, (yieldRunsC cs0)[k0]? = some (r, b) ∧ split_run_at_text r s = some (o, tg, a) ∧
      yieldRunsC cs' = spliceAt (yieldRunsC cs0) k0 [(o, b), (tg, b), (a, b)] := by
  induction cs0, k0 using splitRunsInlines.induct s with
  | case1 k =>
      intro cs' tg h
      simp [splitRunsInlines] at h
  | case2 cs r hsp =>
      intro cs' tg h
      have hval : splitRunsInlines s (Inline.run r :: cs) 0 = none := by
        simp [splitRunsInlines, hsp]
      rw [hval] at h
      exact absurd h (by simp)
  | case3 cs r o tg0 a hsp =>
      intro cs' tg h
      have hval : splitRunsInlines s (Inline.run r :: cs) 0 =
          some (Inline.run o :: Inline.run tg0 :: Inline.run a :: cs, tg0) := by
        simp [splitRunsInlines, hsp]
      rw [hval] at h
      injection h with h1
      injection h1 with hlist htg
      subst htg
      refine ⟨r, false, o, a, by simp [yieldRunsC], hsp, ?_⟩
      rw [← hlist]
      simp [yieldRunsC, spliceAt]
  | case4 cs k r hk ih =>
      intro cs' tg h
      have hval : splitRunsInlines s (Inline.run r :: cs) k =
          (splitRunsInlines s cs (k - 1)).map (fun pr => (Inline.run r :: pr.1, pr.2)) := by
        simp [splitRunsInlines, hk]
      rw [hval, Option.map_eq_some'] at h
      obtain ⟨pr, hpr, heq⟩ := h
      cases heq
      obtain ⟨r', b, o, a, hget, hsp, hsplice⟩ := ih pr.1 pr.2 hpr
      obtain ⟨k', rfl⟩ : ∃ k', k = k' + 1 := ⟨k - 1, by omega⟩
      simp only [Nat.add_sub_cancel] at hget hsplice
      refine ⟨r', b, o, a, by simpa [yieldRunsC] using hget, hsp, ?_⟩
      simp only [yieldRunsC]
      rw [hsplice, ← spliceAt_cons]
  | case5 cs k rid hcs n hklt =>
      intro cs' tg h
      have hk2 : k < (directRuns hcs).length := hklt
      have hval : splitRunsInlines s (Inline.hyperlink rid hcs :: cs) k =
          (splitHyp s hcs k).map (fun pr => (Inline.hyperlink rid pr.1 :: cs, pr.2)) := by
        simp only [splitRunsInlines]
        rw [if_pos hk2]
      rw [hval, Option.map_eq_some'] at h
      obtain ⟨pr, hpr, heq⟩ := h
      cases heq
      obtain ⟨r, o, a, hget, hsp, hsplice⟩ := splitHyp_spec s hcs k pr.1 pr.2 hpr
      have hlen : k < ((directRuns hcs).map (fun r => (r, true))).length := by
        simpa using hk2
      refine ⟨r, true, o, a, ?_, hsp, ?_⟩
      · simp only [yieldRunsC]
        rw [getq_append_lt _ _ k hlen, getq_map_eq]
        simp [hget]
      · simp only [yieldRunsC]
        refine splice_append _ _ _ _ k hlen ?_
        rw [hsplice, spliceAt_map]
        simp
  | case6 cs k rid hcs n hklt ih =>
      intro cs' tg h
      have hk2 : ¬ k < (directRuns hcs).length := hklt
      have hval : splitRunsInlines s (Inline.hyperlink rid hcs :: cs) k =
          (splitRunsInlines s cs (k - (directRuns hcs).length)).map
            (fun pr => (Inline.hyperlink rid hcs :: pr.1, pr.2)) := by
        simp only [splitRunsInlines]
        rw [if_neg hk2]
      rw [hval, Option.map_eq_some'] at h
      obtain ⟨pr, hpr, heq⟩ := h
      cases heq
      obtain ⟨r, b, o, a, hget, hsp, hsplice⟩ := ih pr.1 pr.2 hpr
      have hlen : ((directRuns hcs).map (fun r => (r, true))).length = (directRuns hcs).length := by
        simp
      have hk : k = ((directRuns hcs).map (fun r => (r, true))).length +
          (k - (directRuns hcs).length) := by
        simp only [hlen]
        omega
      refine ⟨r, b, o, a, ?_, hsp, ?_⟩
      · simp only [yieldRunsC]
        rw [hk, getq_append_add]
        exact hget
      · simp only [yieldRunsC]
        rw [hk]
        exact splice_prepend _ _ _ _ _ hsplice
  | case7 cs k ics n hklt ih =>
      intro cs' tg h
      have hk2 : k < (yieldRunsC ics).length := hklt
      have hval : splitRunsInlines s (Inline.ins ics :: cs) k =
          (splitRunsInlines s ics k).map (fun pr => (Inline.ins pr.1 :: cs, pr.2)) := by
        simp only [splitRunsInlines]
        rw [if_pos hk2]
      rw [hval, Option.map_eq_some'] at h
      obtain ⟨pr, hpr, heq⟩ := h
      cases heq
      obtain ⟨r, b, o, a, hget, hsp, hsplice⟩ := ih pr.1 pr.2 hpr
      refine ⟨r, b, o, a, ?_, hsp, ?_⟩
      · simp only [yieldRunsC]
        rw [getq_append_lt _ _ k hk2]
        exact hget
      · simp only [yieldRunsC]
        exact splice_append _ _ _ _ k hk2 hsplice
  | case8 cs k ics n hklt ih =>
      intro cs' tg h
      have hk2 : ¬ k < (yieldRunsC ics).length := hklt
      have hval : splitRunsInlines s (Inline.ins ics :: cs) k =
          (splitRunsInlines s cs (k - (yieldRunsC ics).length)).map
            (fun pr => (Inline.ins ics :: pr.1, pr.2)) := by
        simp only [splitRunsInlines]
        rw [if_neg hk2]
      rw [hval, Option.map_eq_some'] at h
      obtain ⟨pr, hpr, heq⟩ := h
      cases heq
      obtain ⟨r, b, o, a, hget, hsp, hsplice⟩ := ih pr.1 pr.2 hpr
      have hk : k = (yieldRunsC ics).length + (k - (yieldRunsC ics).length) := by omega
      refine ⟨r, b, o, a, ?_, hsp, ?_⟩
      · simp only [yieldRunsC]
        rw [hk, getq_append_add]
        exact hget
      · simp only [yieldRunsC]
        rw [hk]
        exact splice_prepend _ _ _ _ _ hsplice
  | case9 cs k dcs ih =>
      intro cs' tg h
      have hval : splitRunsInlines s (Inline.del dcs :: cs) k =
          (splitRunsInlines s cs k).map (fun pr => (Inline.del dcs :: pr.1, pr.2)) := by
        simp [splitRunsInlines]
      rw [hval, Option.map_eq_some'] at h
      obtain ⟨pr, hpr, heq⟩ := h
      cases heq
      obtain ⟨r, b, o, a, hget, hsp, hsplice⟩ := ih pr.1 pr.2 hpr
      exact ⟨r, b, o, a, by simpa [yieldRunsC] using hget, hsp, by simpa [yieldRunsC] using hsplice⟩
  | case10 cs k ih =>
      intro cs' tg h
      have hval : splitRunsInlines s (Inline.other :: cs) k =
          (splitRunsInlines s cs k).map (fun pr => (Inline.other :: pr.1, pr.2)) := by
        simp [splitRunsInlines]
      rw [hval, Option.map_eq_some'] at h
      obtain ⟨pr, hpr, heq⟩ := h
      cases heq
      obtain ⟨r, b, o, a, hget, hsp, hsplice⟩ := ih pr.1 pr.2 hpr
      exact ⟨r, b, o, a, by simpa [yieldRunsC] using hget, hsp, by simpa [yieldRunsC] using hsplice⟩

theorem splitParas_spec (s : List Char) (ps : List Para) :
    ∀ (k : Nat) (ps' : List Para) (tg : RunE),
    splitParas s ps k = some (ps', tg) →
    ∃ r b o a, (parasRuns ps)[k]? = some (r, b) ∧ split_run_at_text r s = some (o, tg, a) ∧
      parasRuns ps' = spliceAt (parasRuns ps) k [(o, b), (tg, b), (a, b)] := by
  induction ps with
  | nil => intro k ps' tg h; simp [splitParas] at h
  | cons p ps ih =>
      intro k ps' tg h
      by_cases hk : k < (yieldRunsC p).length
      · have hval : splitParas s (p :: ps) k =
            (splitRunsInlines s p k).map (fun pr => (pr.1 :: ps, pr.2)) := by
          simp only [splitParas]
          rw [if_pos hk]
        rw [hval, Option.map_eq_some'] at h
        obtain ⟨pr, hpr, heq⟩ := h
        cases heq
        obtain ⟨r, b, o, a, hget, hsp, hsplice⟩ := splitInl_spec s p k pr.1 pr.2 hpr
        refine ⟨r, b, o, a, ?_, hsp, ?_⟩
        · simp only [parasRuns, concatMap]
          rw [getq_append_lt _ _ k hk]
          exact hget
        · simp only [parasRuns, concatMap]
          exact splice_append _ _ _ _ k hk hsplice
      · have hval : splitParas s (p :: ps) k =
            (splitParas s ps (k - (yieldRunsC p).length)).map (fun pr => (p :: pr.1, pr.2)) := by
          simp only [splitParas]
          rw [if_neg hk]
        rw [hval, Option.map_eq_some'] at h
        obtain ⟨pr, hpr, heq⟩ := h
        cases heq
        obtain ⟨r, b, o, a, hget, hsp, hsplice⟩ := ih (k - (yieldRunsC p).length) pr.1 pr.2 hpr
        have hkeq : k = (yieldRunsC p).length + (k - (yieldRunsC p).length) := by omega
        refine ⟨r, b, o, a, ?_, hsp, ?_⟩
        · simp only [parasRuns, concatMap]
          rw [hkeq, getq_append_add]
          exact hget
        · simp only [parasRuns, concatMap]
          rw [hkeq]
          exact splice_prepend _ _ _ _ _ hsplice

theorem cellsRunsSeen_map_mem (t : Nat) (ps : List Para) (cs : List Cell) :
    ∀ seen, t ∈ seen →
    cellsRunsSeen seen (cs.map (mapTcCell t ps)) = cellsRunsSeen seen cs := by
  induction cs with
  | nil => intro seen ht; rfl
  | cons c cs ih =>
      intro seen ht
      by_cases hct : c.tcId = t
      · have hcm : c.tcId ∈ seen := by rw [hct]; exact ht
        simp [mapTcCell, cellsRunsSeen, hct, hcm, ht, ih seen ht]
      · simp only [List.map_cons, mapTcCell, if_neg hct]
        by_cases hm : c.tcId ∈ seen
        · simp [cellsRunsSeen, hm, ih seen ht]
        · simp only [cellsRunsSeen, if_neg hm]
          rw [ih (c.tcId :: seen) (List.mem_cons_of_mem _ ht)]

theorem map_mapTcCell_not_mem (t : Nat) (ps : List Para) (cs : List Cell)
    (h : t ∉ cs.map Cell.tcId) : cs.map (mapTcCell t ps) = cs := by
  induction cs with
  | nil => rfl
  | cons c cs ih =>
      have hct : ¬ c.tcId = t := by
        intro he
        apply h
        simp [he]
      have hcs : t ∉ cs.map Cell.tcId := by
        intro hm
        apply h
        simp [hm]
      simp [mapTcCell, hct, ih hcs]

theorem splitCellsLoc_spec (s : List Char) (cells : List Cell) :
    ∀ (seen : List Nat) (k : Nat) (t : Nat) (ps' : List Para) (tg : RunE),
    splitCellsLoc s seen cells k = some ((t, ps'), tg) →
    t ∉ seen ∧ t ∈ cells.map Cell.tcId ∧
    ∃ r b o a, (cellsRunsSeen seen cells)[k]? = some (r, b) ∧
      split_run_at_text r s = some (o, tg, a) ∧
      cellsRunsSeen seen (cells.map (mapTcCell t ps')) =
        spliceAt (cellsRunsSeen seen cells) k [(o, b), (tg, b), (a, b)] := by
  induction cells with
  | nil => intro seen k t ps' tg h; simp [splitCellsLoc] at h
  | cons c cs ih =>
      intro seen k t ps' tg h
      by_cases hmem : c.tcId ∈ seen
      · have hval : splitCellsLoc s seen (c :: cs) k = splitCellsLoc s seen cs k := by
          simp only [splitCellsLoc]
          rw [if_pos hmem]
        rw [hval] at h
        obtain ⟨hts, htm, r, b, o, a, hget, hsp, hsplice⟩ := ih seen k t ps' tg h
        have hct : ¬ c.tcId = t := fun he => hts (he ▸ hmem)
        have hmc : mapTcCell t ps' c = c := by simp [mapTcCell, hct]
        refine ⟨hts, by simp [htm], r, b, o, a, ?_, hsp, ?_⟩
        · simpa [cellsRunsSeen, hmem] using hget
        · have hL : cellsRunsSeen seen ((c :: cs).map (mapTcCell t ps')) =
              cellsRunsSeen seen (cs.map (mapTcCell t ps')) := by
            simp [hmc, cellsRunsSeen, hmem]
          have hR : cellsRunsSeen seen (c :: cs) = cellsRunsSeen seen cs := by
            simp [cellsRunsSeen, hmem]
          rw [hL, hR, hsplice]
      · by_cases hk : k < (concatMap yieldRunsC c.paras).length
        · have hval : splitCellsLoc s seen (c :: cs) k =
              (splitParas s c.paras k).map (fun pr => ((c.tcId, pr.1), pr.2)) := by
            simp only [splitCellsLoc]
            rw [if_neg hmem, if_pos hk]
          rw [hval, Option.map_eq_some'] at h
          obtain ⟨pr, hpr, heq⟩ := h
          injection heq with h1 h2
          injection h1 with h1a h1b
          subst h1a
          subst h1b
          subst h2
          obtain ⟨r, b, o, a, hget, hsp, hsplice⟩ := splitParas_spec s c.paras k pr.1 pr.2 hpr
          have hk2 : k < (parasRuns c.paras).length := hk
          have hsuf : cellsRunsSeen (c.tcId :: seen) (cs.map (mapTcCell c.tcId pr.1)) =
              cellsRunsSeen (c.tcId :: seen) cs :=
            cellsRunsSeen_map_mem _ _ _ _ (List.mem_cons_self _ _)
          refine ⟨hmem, by simp, r, b, o, a, ?_, hsp, ?_⟩
          · simp only [cellsRunsSeen, if_neg hmem]
            rw [getq_append_lt _ _ k hk2]
            exact hget
          · have hL : cellsRunsSeen seen ((c :: cs).map (mapTcCell c.tcId pr.1)) =
                parasRuns pr.1 ++ cellsRunsSeen (c.tcId :: seen) (cs.map (mapTcCell c.tcId pr.1)) := by
              simp [mapTcCell, cellsRunsSeen, hmem, parasRuns]
            have hR : cellsRunsSeen seen (c :: cs) =
                parasRuns c.paras ++ cellsRunsSeen (c.tcId :: seen) cs := by
              simp [cellsRunsSeen, hmem]
            rw [hL, hR, hsuf, hsplice]
            exact splice_append _ _ _ _ k hk2 rfl
        · have hval : splitCellsLoc s seen (c :: cs) k =
              splitCellsLoc s (c.tcId :: seen) cs (k - (concatMap yieldRunsC c.paras).length) := by
            simp only [splitCellsLoc]
            rw [if_neg hmem, if_neg hk]
          rw [hval] at h
          obtain ⟨hts, htm, r, b, o, a, hget, hsp, hsplice⟩ := ih (c.tcId :: seen) _ t ps' tg h
          have hct : ¬ c.tcId = t := fun he => hts (by rw [he]; exact List.mem_cons_self _ _)
          have hts' : t ∉ seen := fun hmem2 => hts (List.mem_cons_of_mem _ hmem2)
          have hmc : mapTcCell t ps' c = c := by simp [mapTcCell, hct]
          have hkeq : k = (parasRuns c.paras).length +
              (k - (concatMap yieldRunsC c.paras).length) := by
            have hpe : (parasRuns c.paras).length = (concatMap yieldRunsC c.paras).length := rfl
            rw [hpe]
            omega
          refine ⟨hts', by simp [htm], r, b, o, a, ?_, hsp, ?_⟩
          · simp only [cellsRunsSeen, if_neg hmem]
            rw [hkeq, getq_append_add]
            exact hget
          · have hL : cellsRunsSeen seen ((c :: cs).map (mapTcCell t ps')) =
                parasRuns c.paras ++ cellsRunsSeen (c.tcId :: seen) (cs.map (mapTcCell t ps')) := by
              simp [hmc, cellsRunsSeen, hmem]
            have hR : cellsRunsSeen seen (c :: cs) =
                parasRuns c.paras ++ cellsRunsSeen (c.tcId :: seen) cs := by
              simp [cellsRunsSeen, hmem]
            rw [hL, hR, hkeq]
            exact splice_prepend _ _ _ _ _ hsplice

theorem rows_map_not_mem (t : Nat) (ps : List Para) (rows : List (List Cell))
    (h : ∀ row ∈ rows, t ∉ row.map Cell.tcId) :
    rows.map (fun row => row.map (mapTcCell t ps)) = rows := by
  induction rows with
  | nil => rfl
  | cons row rows ih =>
      simp only [List.map_cons]
      rw [map_mapTcCell_not_mem t ps row (h row (List.mem_cons_self _ _)),
        ih (fun r hr => h r (List.mem_cons_of_mem _ hr))]

theorem splitRowsLoc_spec (s : List Char) (rows : List (List Cell)) :
    ∀ (k : Nat) (t : Nat) (ps' : List Para) (tg : RunE),
    splitRowsLoc s rows k = some ((t, ps'), tg) →
    (∃ rid ∈ rows.map (fun row => row.map Cell.tcId), t ∈ rid) ∧
    ∃ r b o a, (rowsRuns rows)[k]? = some (r, b) ∧ split_run_at_text r s = some (o, tg, a) ∧
      (List.Pairwise (fun r1 r2 => ∀ x ∈ r1, x ∉ r2)
          (rows.map (fun row => row.map Cell.tcId)) →
        rowsRuns (rows.map (fun row => row.map (mapTcCell t ps'))) =
          spliceAt (rowsRuns rows) k [(o, b), (tg, b), (a, b)]) := by
  induction rows with
  | nil => intro k t ps' tg h; simp [splitRowsLoc] at h
  | cons row rows ih =>
      intro k t ps' tg h
      have hbr : concatMap yieldRunsC (concatMap Cell.paras (dedupRow [] row)) =
          cellsRunsSeen [] row := cellsRuns_bridge row []
      by_cases hk : k < (concatMap yieldRunsC (concatMap Cell.paras (dedupRow [] row))).length
      · have hval : splitRowsLoc s (row :: rows) k = splitCellsLoc s [] row k := by
          simp only [splitRowsLoc]
          rw [if_pos hk]
        rw [hval] at h
        obtain ⟨_, htm, r, b, o, a, hget, hsp, hsplice⟩ := splitCellsLoc_spec s row [] k t ps' tg h
        have hk2 : k < (cellsRunsSeen [] row).length := by rw [← hbr]; exact hk
        refine ⟨⟨row.map Cell.tcId, List.mem_cons_self _ _, htm⟩, r, b, o, a, ?_, hsp, ?_⟩
        · simp only [rowsRuns]
          rw [getq_append_lt _ _ k hk2]
          exact hget
        · intro hpw
          simp only [List.map_cons] at hpw
          rw [List.pairwise_cons] at hpw
          obtain ⟨hhead, _⟩ := hpw
          have hothers : ∀ row2 ∈ rows, t ∉ row2.map Cell.tcId := by
            intro row2 hr2
            exact hhead (row2.map Cell.tcId) (List.mem_map_of_mem _ hr2) t htm
          simp only [List.map_cons, rowsRuns]
          rw [rows_map_not_mem t ps' rows hothers]
          exact splice_append _ _ _ _ k hk2 hsplice
      · have hval : splitRowsLoc s (row :: rows) k =
            splitRowsLoc s rows
              (k - (concatMap yieldRunsC (concatMap Cell.paras (dedupRow [] row))).length) := by
          simp only [splitRowsLoc]
          rw [if_neg hk]
        rw [hval] at h
        obtain ⟨⟨rid, hrid, htm⟩, r, b, o, a, hget, hsp, hsplice⟩ := ih _ t ps' tg h
        have hkeq : k = (cellsRunsSeen [] row).length +
            (k - (concatMap yieldRunsC (concatMap Cell.paras (dedupRow [] row))).length) := by
          rw [← hbr]
          omega
        refine ⟨⟨rid, List.mem_cons_of_mem _ hrid, htm⟩, r, b, o, a, ?_, hsp, ?_⟩
        · simp only [rowsRuns]
          rw [hkeq, getq_append_add]
          exact hget
        · intro hpw
          simp only [List.map_cons] at hpw
          rw [List.pairwise_cons] at hpw
          obtain ⟨hhead, htail⟩ := hpw
          have hheadnot : t ∉ row.map Cell.tcId := fun htr =>
            hhead rid hrid t htr htm
          simp only [List.map_cons, rowsRuns]
          rw [map_mapTcCell_not_mem t ps' row hheadnot, hkeq]
          exact splice_prepend _ _ _ _ _ (hsplice htail)

theorem docTcRows_p (para : Para) (bs : Doc) :
    docTcRows (Block.p para :: bs) = docTcRows bs := by
  simp [docTcRows]

theorem docTcRows_tbl (rows : List (List Cell)) (bs : Doc) :
    docTcRows (Block.tbl rows :: bs) =
      rows.map (fun row => row.map Cell.tcId) ++ docTcRows bs := by
  simp [docTcRows]

theorem docTcRows_sdt (isTOC : Bool) (content : List Block) (bs : Doc) :
    docTcRows (Block.sdt isTOC content :: bs) = docTcRows content ++ docTcRows bs := by
  simp [docTcRows]

theorem docTcRows_other (bs : Doc) :
    docTcRows (Block.other :: bs) = docTcRows bs := by
  simp [docTcRows]

theorem blocksRuns_mapTc_not_mem (t : Nat) (ps : List Para) (bs : Doc)
    (h : ∀ rid ∈ docTcRows bs, t ∉ rid) :
    blocksRuns (mapTcContent t ps bs) = blocksRuns bs := by
  induction bs with
  | nil => simp [mapTcContent]
  | cons blk bs ih =>
      cases blk with
      | p para =>
          simp only [mapTcContent, blocksRuns]
          rw [ih (fun rid hr => h rid (by rw [docTcRows_p]; exact hr))]
      | tbl rows =>
          have hrows : ∀ row ∈ rows, t ∉ row.map Cell.tcId := by
            intro row hrow
            exact h (row.map Cell.tcId)
              (by rw [docTcRows_tbl]
                  exact List.mem_append_left _ (List.mem_map_of_mem _ hrow))
          simp only [mapTcContent, blocksRuns]
          rw [rows_map_not_mem t ps rows hrows,
            ih (fun rid hr => h rid (by rw [docTcRows_tbl]; exact List.mem_append_right _ hr))]
      | sdt isTOC content =>
          simp only [mapTcContent, blocksRuns]
          exact ih (fun rid hr => h rid (by rw [docTcRows_sdt]; exact List.mem_append_right _ hr))
      | other =>
          simp only [mapTcContent, blocksRuns]
          rw [ih (fun rid hr => h rid (by rw [docTcRows_other]; exact hr))]

theorem splitBlocksLoc_spec (s : List Char) (bs : Doc) :
    ∀ (k : Nat) (res : Sum Doc (Nat × List Para)) (tg : RunE),
    splitBlocksLoc s bs k = some (res, tg) →
    ∃ r b o a, (blocksRuns bs)[k]? = some (r, b) ∧ split_run_at_text r s = some (o, tg, a) ∧
      (∀ bs₂, res = Sum.inl bs₂ →
        blocksRuns bs₂ = spliceAt (blocksRuns bs) k [(o, b), (tg, b), (a, b)]) ∧
      (∀ t ps, res = Sum.inr (t, ps) →
        (∃ rid ∈ docTcRows bs, t ∈ rid) ∧
        (List.Pairwise (fun r1 r2 => ∀ x ∈ r1, x ∉ r2) (docTcRows bs) →
          blocksRuns (mapTcContent t ps bs) =
            spliceAt (blocksRuns bs) k [(o, b), (tg, b), (a, b)])) := by
  induction bs with
  | nil => intro k res tg h; simp [splitBlocksLoc] at h
  | cons blk bs ih =>
      intro k res tg h
      cases blk with
      | p para =>
          by_cases hk : k < (yieldRunsC para).length
          · have hval : splitBlocksLoc s (Block.p para :: bs) k =
                (splitRunsInlines s para k).map
                  (fun pr => (Sum.inl (Block.p pr.1 :: bs), pr.2)) := by
              simp only [splitBlocksLoc]
              rw [if_pos hk]
            rw [hval, Option.map_eq_some'] at h
            obtain ⟨pr, hpr, heq⟩ := h
            cases heq
            obtain ⟨r, b, o, a, hget, hsp, hsplice⟩ := splitInl_spec s para k pr.1 pr.2 hpr
            refine ⟨r, b, o, a, ?_, hsp, ?_, ?_⟩
            · simp only [blocksRuns]
              rw [getq_append_lt _ _ k hk]
              exact hget
            · intro bs₂ hb
              injection hb with hb2
              subst hb2
              simp only [blocksRuns]
              exact splice_append _ _ _ _ k hk hsplice
            · intro t ps hr
              exact absurd hr (by simp)
          · have hval : splitBlocksLoc s (Block.p para :: bs) k =
                (splitBlocksLoc s bs (k - (yieldRunsC para).length)).map
                  (consBlockLoc (Block.p para)) := by
              simp only [splitBlocksLoc]
              rw [if_neg hk]
            rw [hval, Option.map_eq_some'] at h
            obtain ⟨pr, hpr, heq⟩ := h
            obtain ⟨res0, tg0⟩ := pr
            obtain ⟨r, b, o, a, hget, hsp, hinl, hinr⟩ :=
              ih (k - (yieldRunsC para).length) res0 tg0 hpr
            have hkeq : k = (yieldRunsC para).length + (k - (yieldRunsC para).length) := by omega
            have hget2 : (blocksRuns (Block.p para :: bs))[k]? = some (r, b) := by
              simp only [blocksRuns]
              rw [hkeq, getq_append_add]
              exact hget
            cases res0 with
            | inl bs₂ =>
                simp only [consBlockLoc] at heq
                cases heq
                refine ⟨r, b, o, a, hget2, hsp, ?_, ?_⟩
                · intro bs₃ hb
                  injection hb with hb2
                  subst hb2
                  simp only [blocksRuns]
                  rw [hkeq]
                  exact splice_prepend _ _ _ _ _ (hinl bs₂ rfl)
                · intro t ps hr
                  exact absurd hr (by simp)
            | inr tp =>
                obtain ⟨t0, ps0⟩ := tp
                simp only [consBlockLoc] at heq
                cases heq
                refine ⟨r, b, o, a, hget2, hsp, ?_, ?_⟩
                · intro bs₃ hb
                  exact absurd hb (by simp)
                · intro t ps hr
                  injection hr with hr1
                  injection hr1 with hrt hrp
                  subst hrt
                  subst hrp
                  obtain ⟨⟨rid, hrid, htm⟩, hcond⟩ := hinr t0 ps0 rfl
                  constructor
                  · exact ⟨rid, by rw [docTcRows_p]; exact hrid, htm⟩
                  · intro hpw
                    rw [docTcRows_p] at hpw
                    simp only [mapTcContent, blocksRuns]
                    rw [hkeq]
                    exact splice_prepend _ _ _ _ _ (hcond hpw)
      | tbl rows =>
          have hbrt : concatMap yieldRunsC (tblParas rows) = rowsRuns rows := tblRuns_bridge rows
          by_cases hk : k < (concatMap yieldRunsC (tblParas rows)).length
          · have hval : splitBlocksLoc s (Block.tbl rows :: bs) k =
                (splitRowsLoc s rows k).map (fun pr => (Sum.inr pr.1, pr.2)) := by
              simp only [splitBlocksLoc]
              rw [if_pos hk]
            rw [hval, Option.map_eq_some'] at h
            obtain ⟨pr, hpr, heq⟩ := h
            obtain ⟨⟨t0, ps0⟩, tg0⟩ := pr
            cases heq
            obtain ⟨⟨rid, hrid, htm⟩, r, b, o, a, hget, hsp, hcondrows⟩ :=
              splitRowsLoc_spec s rows k t0 ps0 tg0 hpr
            have hk2 : k < (rowsRuns rows).length := by rw [← hbrt]; exact hk
            refine ⟨r, b, o, a, ?_, hsp, ?_, ?_⟩
            · simp only [blocksRuns]
              rw [getq_append_lt _ _ k hk2]
              exact hget
            · intro bs₂ hb
              exact absurd hb (by simp)
            · intro t ps hr
              injection hr with hr1
              injection hr1 with hrt hrp
              subst hrt
              subst hrp
              constructor
              · exact ⟨rid, by rw [docTcRows_tbl]; exact List.mem_append_left _ hrid, htm⟩
              · intro hpw
                rw [docTcRows_tbl, List.pairwise_append] at hpw
                obtain ⟨hpw1, hpw2, hpw3⟩ := hpw
                have htail : ∀ rid2 ∈ docTcRows bs, t0 ∉ rid2 := fun rid2 hr2 =>
                  hpw3 rid hrid rid2 hr2 t0 htm
                simp only [mapTcContent, blocksRuns]
                rw [blocksRuns_mapTc_not_mem t0 ps0 bs htail]
                exact splice_append _ _ _ _ k hk2 (hcondrows hpw1)
          · have hval : splitBlocksLoc s (Block.tbl rows :: bs) k =
                (splitBlocksLoc s bs (k - (concatMap yieldRunsC (tblParas rows)).length)).map
                  (consBlockLoc (Block.tbl rows)) := by
              simp only [splitBlocksLoc]
              rw [if_neg hk]
            rw [hval, Option.map_eq_some'] at h
            obtain ⟨pr, hpr, heq⟩ := h
            obtain ⟨res0, tg0⟩ := pr
            obtain ⟨r, b, o, a, hget, hsp, hinl, hinr⟩ :=
              ih (k - (concatMap yieldRunsC (tblParas rows)).length) res0 tg0 hpr
            have hkeq : k = (rowsRuns rows).length +
                (k - (concatMap yieldRunsC (tblParas rows)).length) := by
              rw [← hbrt]
              omega
            have hget2 : (blocksRuns (Block.tbl rows :: bs))[k]? = some (r, b) := by
              simp only [blocksRuns]
              rw [hkeq, getq_append_add]
              exact hget
            cases res0 with
            | inl bs₂ =>
                simp only [consBlockLoc] at heq
                cases heq
                refine ⟨r, b, o, a, hget2, hsp, ?_, ?_⟩
                · intro bs₃ hb
                  injection hb with hb2
                  subst hb2
                  simp only [blocksRuns]
                  rw [hkeq]
                  exact splice_prepend _ _ _ _ _ (hinl bs₂ rfl)
                · intro t ps hr
                  exact absurd hr (by simp)
            | inr tp =>
                obtain ⟨t0, ps0⟩ := tp
                simp only [consBlockLoc] at heq
                cases heq
                refine ⟨r, b, o, a, hget2, hsp, ?_, ?_⟩
                · intro bs₃ hb
                  exact absurd hb (by simp)
                · intro t ps hr
                  injection hr with hr1
                  injection hr1 with hrt hrp
                  subst hrt
                  subst hrp
                  obtain ⟨⟨rid2, hrid2, htm2⟩, hcond⟩ := hinr t0 ps0 rfl
                  constructor
                  · exact ⟨rid2, by rw [docTcRows_tbl]; exact List.mem_append_right _ hrid2, htm2⟩
                  · intro hpw
                    rw [docTcRows_tbl, List.pairwise_append] at hpw
                    obtain ⟨hpw1, hpw2, hpw3⟩ := hpw
                    have hhead : ∀ row ∈ rows, t0 ∉ row.map Cell.tcId := by
                      intro row hrow ht
                      exact hpw3 (row.map Cell.tcId) (List.mem_map_of_mem _ hrow)
                        rid2 hrid2 t0 ht htm2
                    simp only [mapTcContent, blocksRuns]
                    rw [rows_map_not_mem t0 ps0 rows hhead, hkeq]
                    exact splice_prepend _ _ _ _ _ (hcond hpw2)
      | sdt isTOC content =>
          have hval : splitBlocksLoc s (Block.sdt isTOC content :: bs) k =
              (splitBlocksLoc s bs k).map (consBlockLoc (Block.sdt isTOC content)) := by
            simp [splitBlocksLoc]
          rw [hval, Option.map_eq_some'] at h
          obtain ⟨pr, hpr, heq⟩ := h
          obtain ⟨res0, tg0⟩ := pr
          obtain ⟨r, b, o, a, hget, hsp, hinl, hinr⟩ := ih k res0 tg0 hpr
          have hget2 : (blocksRuns (Block.sdt isTOC content :: bs))[k]? = some (r, b) := by
            simpa [blocksRuns] using hget
          cases res0 with
          | inl bs₂ =>
              simp only [consBlockLoc] at heq
              cases heq
              refine ⟨r, b, o, a, hget2, hsp, ?_, ?_⟩
              · intro bs₃ hb
                injection hb with hb2
                subst hb2
                simp only [blocksRuns]
                exact hinl bs₂ rfl
              · intro t ps hr
                exact absurd hr (by simp)
          | inr tp =>
              obtain ⟨t0, ps0⟩ := tp
              simp only [consBlockLoc] at heq
              cases heq
              refine ⟨r, b, o, a, hget2, hsp, ?_, ?_⟩
              · intro bs₃ hb
                exact absurd hb (by simp)
              · intro t ps hr
                injection hr with hr1
                injection hr1 with hrt hrp
                subst hrt
                subst hrp
                obtain ⟨⟨rid, hrid, htm⟩, hcond⟩ := hinr t0 ps0 rfl
                constructor
                · exact ⟨rid, by rw [docTcRows_sdt]; exact List.mem_append_right _ hrid, htm⟩
                · intro hpw
                  rw [docTcRows_sdt, List.pairwise_append] at hpw
                  obtain ⟨hpw1, hpw2, hpw3⟩ := hpw
                  simp only [mapTcContent, blocksRuns]
                  exact hcond hpw2
      | other =>
          have hval : splitBlocksLoc s (Block.other :: bs) k =
              (splitBlocksLoc s bs k).map (consBlockLoc Block.other) := by
            simp [splitBlocksLoc]
          rw [hval, Option.map_eq_some'] at h
          obtain ⟨pr, hpr, heq⟩ := h
          obtain ⟨res0, tg0⟩ := pr
          obtain ⟨r, b, o, a, hget, hsp, hinl, hinr⟩ := ih k res0 tg0 hpr
          have hget2 : (blocksRuns (Block.other :: bs))[k]? = some (r, b) := by
            simpa [blocksRuns] using hget
          cases res0 with
          | inl bs₂ =>
              simp only [consBlockLoc] at heq
              cases heq
              refine ⟨r, b, o, a, hget2, hsp, ?_, ?_⟩
              · intro bs₃ hb
                injection hb with hb2
                subst hb2
                simp only [blocksRuns]
                exact hinl bs₂ rfl
              · intro t ps hr
                exact absurd hr (by simp)
          | inr tp =>
              obtain ⟨t0, ps0⟩ := tp
              simp only [consBlockLoc] at heq
              cases heq
              refine ⟨r, b, o, a, hget2, hsp, ?_, ?_⟩
              · intro bs₃ hb
                exact absurd hb (by simp)
              · intro t ps hr
                injection hr with hr1
                injection hr1 with hrt hrp
                subst hrt
                subst hrp
                obtain ⟨⟨rid, hrid, htm⟩, hcond⟩ := hinr t0 ps0 rfl
                constructor
                · exact ⟨rid, by rw [docTcRows_other]; exact hrid, htm⟩
                · intro hpw
                  rw [docTcRows_other] at hpw
                  simp only [mapTcContent, blocksRuns]
                  exact hcond hpw

theorem splitDocAt_spec (d : Doc) (K : Nat) (s : List Char) (d' : Doc) (tg : RunE)
    (hshare : noCrossRowShare d)
    (h : splitDocAt d K s = some (d', tg)) :
    ∃ r b o a, (commenterRuns d)[K]? = some (r, b) ∧ split_run_at_text r s = some (o, tg, a) ∧
      commenterRuns d' = spliceAt (commenterRuns d) K [(o, b), (tg, b), (a, b)] := by
  unfold splitDocAt at h
  cases hb : splitBlocksLoc s d K with
  | none =>
      rw [hb] at h
      exact absurd h (by simp)
  | some pr =>
      obtain ⟨res0, tg0⟩ := pr
      rw [hb] at h
      obtain ⟨r, b, o, a, hget, hsp, hinl, hinr⟩ := splitBlocksLoc_spec s d K res0 tg0 hb
      cases res0 with
      | inl d₁ =>
          injection h with h1
          injection h1 with hd htg
          subst hd
          subst htg
          exact ⟨r, b, o, a, by rw [commenterRuns_eq]; exact hget, hsp,
            by rw [commenterRuns_eq, commenterRuns_eq]; exact hinl _ rfl⟩
      | inr tp =>
          obtain ⟨t, ps⟩ := tp
          injection h with h1
          injection h1 with hd htg
          subst htg
          obtain ⟨_, hcond⟩ := hinr t ps rfl
          exact ⟨r, b, o, a, by rw [commenterRuns_eq]; exact hget, hsp,
            by rw [← hd, commenterRuns_eq, commenterRuns_eq]; exact hcond hshare⟩

theorem getq_lt_length (l : List α) (k : Nat) (x : α) (h : l[k]? = some x) : k < l.length := by
  by_contra hcon
  rw [List.getElem?_eq_none (by omega)] at h
  simp at h

theorem listInsert_zero (a : α) (l : List α) : listInsert 0 a l = a :: l := by
  cases l <;> simp [listInsert]

theorem listInsert_set (cs : List α) : ∀ (j : Nat) (x y z : α), j < cs.length →
    listInsert (j + 2) z (listInsert (j + 1) y (cs.set j x)) = spliceAt cs j [x, y, z] := by
  induction cs with
  | nil => intro j x y z h; simp at h
  | cons c cs ih =>
      intro j x y z h
      cases j with
      | zero => simp [listInsert, spliceAt, listInsert_zero]
      | succ j =>
          have hlt : j < cs.length := by simpa using h
          simp only [List.set_cons_succ]
          rw [show j + 1 + 2 = (j + 2) + 1 by omega, show j + 1 + 1 = (j + 1) + 1 by omega]
          simp only [listInsert]
          rw [ih j x y z hlt, spliceAt_cons]

theorem take_drop_take_concat (l : List Char) (i len : Nat) :
    l.take i ++ (l.drop i).take len ++ l.drop (i + len) = l := by
  have h2 : ((l.drop i).drop len) = l.drop (i + len) := by
    rw [List.drop_drop, Nat.add_comm]
  calc l.take i ++ (l.drop i).take len ++ l.drop (i + len)
      = l.take i ++ ((l.drop i).take len ++ (l.drop i).drop len) := by
        rw [← h2, List.append_assoc]
    _ = l.take i ++ l.drop i := by rw [List.take_append_drop]
    _ = l := List.take_append_drop i l

/-- C2: for every run `R` whose text contains the sub-string `S`
case-insensitively, `split_run_at_text` leaves exactly three sibling run
elements in the parent: the original element mutated in place to hold only
the before-span, immediately followed by a new target run holding the
first case-insensitive occurrence of `S` with original casing, and a new
after run; the three texts concatenate to `R`'s original text, both new
runs carry a copy of `R`'s formatting properties, and empty before/after
spans still yield runs (with empty text) rather than being elided. -/
theorem c2_split_run_at_text_shape (cs : List Inline) (j : Nat) (r : RunE) (s : List Char) (i : Nat)
    (hj : cs[j]? = some (Inline.run r))
    (hocc : strFind (lowerStr (runText r)) (lowerStr s) = some i) :
    ∃ o tg a, split_run_at_text r s = some (o, tg, a) ∧
      split_run_in_parent cs j s =
        some (spliceAt cs j [Inline.run o, Inline.run tg, Inline.run a], tg) ∧
      runText o ++ runText tg ++ runText a = runText r ∧
      runText o = (runText r).take i ∧
      runText tg = ((runText r).drop i).take s.length ∧
      runText a = (runText r).drop (i + s.length) ∧
      o.rPr = r.rPr ∧ tg.rPr = r.rPr ∧ a.rPr = r.rPr ∧
      tg.t = some { text := ((runText r).drop i).take s.length, preserve := true } ∧
      a.t = some { text := (runText r).drop (i + s.length), preserve := true } := by
  have hsp : split_run_at_text r s =
      some ({ r with t := r.t.map (fun tn => { tn with text := (runText r).take i }) },
            { rPr := r.rPr, t := some { text := ((runText r).drop i).take s.length, preserve := true } },
            { rPr := r.rPr, t := some { text := (runText r).drop (i + s.length), preserve := true } }) := by
    simp [split_run_at_text, hocc]
  refine ⟨_, _, _, hsp, ?_, ?_, ?_, rfl, rfl, rfl, rfl, rfl, rfl, rfl⟩
  · have hjlt : j < cs.length := getq_lt_length cs j _ hj
    simp only [split_run_in_parent, hj, hsp]
    rw [listInsert_set cs j _ _ _ hjlt]
  · cases ht : r.t with
    | none => simp [runText, ht]
    | some tn => simp [runText, ht, take_drop_take_concat]
  · cases ht : r.t with
    | none => simp [runText, ht]
    | some tn => simp [runText, ht]

/-- Witness for C2 at a concrete input: the run `"Hello World"` split at
`"world"` (case-insensitive match at index 6). -/
theorem c2_split_run_at_text_shape_witness :
    csW2[0]? = some (Inline.run rW2) ∧
    strFind (lowerStr (runText rW2)) (lowerStr sW2) = some 6 ∧
    (∃ o tg a, split_run_at_text rW2 sW2 = some (o, tg, a) ∧
      split_run_in_parent csW2 0 sW2 =
        some (spliceAt csW2 0 [Inline.run o, Inline.run tg, Inline.run a], tg) ∧
      runText o ++ runText tg ++ runText a = runText rW2 ∧
      runText o = (runText rW2).take 6 ∧
      runText tg = ((runText rW2).drop 6).take sW2.length ∧
      runText a = (runText rW2).drop (6 + sW2.length) ∧
      o.rPr = rW2.rPr ∧ tg.rPr = rW2.rPr ∧ a.rPr = rW2.rPr ∧
      tg.t = some { text := ((runText rW2).drop 6).take sW2.length, preserve := true } ∧
      a.t = some { text := (runText rW2).drop (6 + sW2.length), preserve := true }) :=
  ⟨rfl, by decide, c2_split_run_at_text_shape csW2 0 rW2 sW2 6 rfl (by decide)⟩

/-- C3, counterexample: in a 2-by-2 table whose first column is
vertically merged, `row.cells` re-yields the shared `w:tc` element in the
continuation row, and the per-row deduplication does not skip it, so the
traversal numbers its run twice: M=0, A=1, M=2, B=3.  Splitting global run
2 - the second alias of the shared element - mutates that element in
place, so the first alias now contributes three runs and global ID 1
resolves to the target fragment `"M"` instead of the run `"A"`: splitting
run K = 2 changed the resolution of ID 1 < K, refuting the claim. -/
theorem c3_vmerge_alias_counterexample :
    splitDocAt dV 2 ['M'] = some (dVx, ⟨none, some ⟨['M'], true⟩⟩) ∧
    find_run_by_global_id dV 2 = some (runM, false) ∧
    find_run_by_global_id dV 1 = some (⟨none, some ⟨['A'], true⟩⟩, false) ∧
    find_run_by_global_id dVx 1 = some (⟨none, some ⟨['M'], true⟩⟩, false) ∧
    find_run_by_global_id dVx 1 ≠ find_run_by_global_id dV 1 := by
  have h1 : splitDocAt dV 2 ['M'] = some (dVx, ⟨none, some ⟨['M'], true⟩⟩) := by
    simp [splitDocAt, splitBlocksLoc, splitRowsLoc, splitCellsLoc, splitParas,
      splitRunsInlines, split_run_at_text, strFind, lowerStr, runText, yieldRunsC,
      directRuns, concatMap, tblParas, dedupRow, mapTcContent, mapTcCell, consBlockLoc,
      dV, dVx, psM, runM, List.isPrefixOf]
  have h2 : commenterRuns dV =
      [(runM, false), (⟨none, some ⟨['A'], true⟩⟩, false),
       (runM, false), (⟨none, some ⟨['B'], true⟩⟩, false)] := by
    simp [commenterRuns, iterDocParagraphsC, tblParas, dedupRow, concatMap, yieldRunsC,
      dV, runM]
  have h3 : commenterRuns dVx =
      [(⟨none, some ⟨[], true⟩⟩, false), (⟨none, some ⟨['M'], true⟩⟩, false),
       (⟨none, some ⟨[], true⟩⟩, false), (⟨none, some ⟨['A'], true⟩⟩, false),
       (⟨none, some ⟨[], true⟩⟩, false), (⟨none, some ⟨['M'], true⟩⟩, false),
       (⟨none, some ⟨[], true⟩⟩, false), (⟨none, some ⟨['B'], true⟩⟩, false)] := by
    simp [commenterRuns, iterDocParagraphsC, tblParas, dedupRow, concatMap, yieldRunsC,
      dVx, psM]
  refine ⟨h1, ?_, ?_, ?_, ?_⟩
  · rw [find_eq_getq, h2]
    rfl
  · rw [find_eq_getq, h2]
    rfl
  · rw [find_eq_getq, h3]
    rfl
  · rw [find_eq_getq, find_eq_getq, h2, h3]
    decide

/-- C3 (amended): for every document in which no `w:tc` element is shared
between two table rows (no vertically merged cells, so the traversal
enumerates every run exactly once), a successful split of the run with
global ID `K` changes the resolution of no global ID below `K`: every ID
`i < K` resolves via `find_run_by_global_id` to the same run element
before and after the split, and ID `K` itself still resolves to the
original element, now mutated to hold only the before-span, since the two
new fragments are inserted after it. -/
theorem c3_split_preserves_lower_ids_unshared (d : Doc) (K : Nat) (s : List Char)
    (d' : Doc) (tg : RunE) (hshare : noCrossRowShare d)
    (h : splitDocAt d K s = some (d', tg)) :
    (∀ i, i < K → find_run_by_global_id d' i = find_run_by_global_id d i) ∧
    ∃ r b o a, find_run_by_global_id d K = some (r, b) ∧
      split_run_at_text r s = some (o, tg, a) ∧
      find_run_by_global_id d' K = some (o, b) := by
  obtain ⟨r, b, o, a, hget, hsp, hsplice⟩ := splitDocAt_spec d K s d' tg hshare h
  have hlt : K < (commenterRuns d).length := getq_lt_length _ K _ hget
  constructor
  · intro i hi
    rw [find_eq_getq, find_eq_getq, hsplice, getq_spliceAt_lt _ _ K i hi hlt]
  · exact ⟨r, b, o, a, by rw [find_eq_getq]; exact hget, hsp,
      by rw [find_eq_getq, hsplice]; exact getq_spliceAt_self _ _ _ K hlt⟩

/-- Witness for C3 (amended) at a concrete input: a table-free (hence
trivially share-free) two-run document, split at global run 1. -/
theorem c3_split_preserves_lower_ids_unshared_witness :
    noCrossRowShare dW3 ∧ splitDocAt dW3 1 ['b'] = some (dW3x, tgW3) ∧
    ((∀ i, i < 1 → find_run_by_global_id dW3x i = find_run_by_global_id dW3 i) ∧
     ∃ r b o a, find_run_by_global_id dW3 1 = some (r, b) ∧
       split_run_at_text r ['b'] = some (o, tgW3, a) ∧
       find_run_by_global_id dW3x 1 = some (o, b)) := by
  have hshare : noCrossRowShare dW3 := by
    have hrows : docTcRows dW3 = [] := by simp [docTcRows, dW3]
    rw [noCrossRowShare, hrows]
    exact List.Pairwise.nil
  have hsplit : splitDocAt dW3 1 ['b'] = some (dW3x, tgW3) := by
    simp [splitDocAt, splitBlocksLoc, splitRunsInlines, split_run_at_text, yieldRunsC,
      directRuns, strFind, lowerStr, runText, dW3, dW3x, tgW3, List.isPrefixOf]
  exact ⟨hshare, hsplit,
    c3_split_preserves_lower_ids_unshared dW3 1 ['b'] dW3x tgW3 hshare hsplit⟩

/-- C1 (falsified by the code, exhibited at a concrete document): the
reader's traversal descends into a non-table-of-contents structured
document tag and numbers its run `"X"` as global ID 0, but the commenter's
`_iter_document_paragraphs` has no `w:sdt` branch at all, so the
commenter's traversal skips the block and `find_run_by_global_id`
resolves ID 0 to the later run `"Y"`: the two traversals do not visit the
same run elements in the same order. -/
theorem c1_sdt_traversal_divergence :
    (readerRuns [] dC1).map (fun t => t.1) =
      ([⟨none, some ⟨['X'], true⟩⟩, ⟨none, some ⟨['Y'], true⟩⟩] : List RunE) ∧
    (readerRuns [] dC1)[0]? =
      some (⟨none, some ⟨['X'], true⟩⟩, false, none) ∧
    (commenterRuns dC1).map (fun t => t.1) = ([⟨none, some ⟨['Y'], true⟩⟩] : List RunE) ∧
    (readerRuns [] dC1).map (fun t => t.1) ≠ (commenterRuns dC1).map (fun t => t.1) ∧
    find_run_by_global_id dC1 0 = some (⟨none, some ⟨['Y'], true⟩⟩, false) := by
  have h1 : readerRuns [] dC1 =
      [(⟨none, some ⟨['X'], true⟩⟩, false, none), (⟨none, some ⟨['Y'], true⟩⟩, false, none)] := by
    simp [readerRuns, iterDocParagraphsR, iterSdtContent, yieldRunsR, concatMap, dC1]
  have h2 : commenterRuns dC1 = [(⟨none, some ⟨['Y'], true⟩⟩, false)] := by
    simp [commenterRuns, iterDocParagraphsC, yieldRunsC, concatMap, dC1]
  refine ⟨by rw [h1]; rfl, by rw [h1]; rfl, by rw [h2]; rfl, ?_, ?_⟩
  · rw [h1, h2]
    decide
  · rw [find_eq_getq, h2]
    rfl

/-- C8: the run enumeration (both the reader's and the commenter's) skips
a `w:del` tracked-deletion wrapper and everything inside it entirely, and
the run sequence around it is exactly the sequence with the wrapper
removed — so kept runs on either side of a deletion receive consecutive
global IDs with no gap. -/
theorem c8_del_excluded_no_gap (cs ds es : List Inline) (rels : List (Nat × List Char)) :
    yieldRunsC (cs ++ Inline.del ds :: es) = yieldRunsC (cs ++ es) ∧
    yieldRunsR rels (cs ++ Inline.del ds :: es) = yieldRunsR rels (cs ++ es) := by
  constructor
  · rw [yieldRunsC_append, yieldRunsC_append]
    simp [yieldRunsC]
  · rw [yieldRunsR_append, yieldRunsR_append]
    simp [yieldRunsR]

theorem resolveTargets_empty_subset (d : Doc) (ids : List Nat) :
    resolveTargets d ids (some []) = resolveTargets d ids none := by
  induction ids generalizing d with
  | nil => rfl
  | cons id rest ih =>
      simp only [resolveTargets, isTruthy]
      cases hf : find_run_by_global_id d id with
      | none => rfl
      | some pr => simp [ih]

/-- C10: calling `add_comment` with `subset_text` equal to the empty
string behaves exactly as calling it with `subset_text` absent — Python
truthiness makes the empty string falsy in both the multi-run guard and
the split branch, so no split is performed and the comment targets the
whole run(s), even though the empty string occurs at position 0 of every
run's text. -/
theorem c10_empty_subset_behaves_as_none (attach : Attach) (doc : Doc)
    (run_ids : Sum Nat (List Nat)) (text author initials : List Char) :
    add_comment attach doc run_ids text (some []) author initials =
      add_comment attach doc run_ids text none author initials := by
  simp only [add_comment, resolveTargets_empty_subset, isTruthy, List.isEmpty_nil,
    Bool.not_true]

/-- C6: `add_comment` filters out every resolved run whose text is empty
or whitespace-only (a run counts as non-empty only if it has a
non-whitespace character), and — with an attachment capability that
succeeds — the request fails exactly when every resolved run is empty by
this rule; in a batch, that failure counts towards the failure count and
never the success count. -/
theorem c6_empty_target_exactly_when_all_blank (d : Doc) (run_ids : Sum Nat (List Nat))
    (text : List Char) (subset_text : Option (List Char)) (author initials : List Char)
    (d1 : Doc) (ts : List RunE)
    (hids : (normalizeIds run_ids).isEmpty = false)
    (hguard : ¬(isTruthy subset_text = true ∧ 1 < (normalizeIds run_ids).length))
    (hres : resolveTargets d (normalizeIds run_ids) subset_text = some (d1, ts)) :
    ((add_comment attachOk d run_ids text subset_text author initials).2 = false ↔
      ∀ r ∈ ts, hasText r = false) ∧
    (add_comments_batch attachOk d [⟨run_ids, text, subset_text⟩] author initials).2 =
      (if ∀ r ∈ ts, hasText r = false then (0, 1) else (1, 0)) := by
  have hval : add_comment attachOk d run_ids text subset_text author initials =
      (if (ts.filter hasText).isEmpty then (d1, false) else (d1, true)) := by
    simp only [add_comment, hres, attachOk]
    rw [if_neg (by simp [hids]), if_neg hguard]
  have hiff : (ts.filter hasText).isEmpty = true ↔ ∀ r ∈ ts, hasText r = false := by
    rw [List.isEmpty_iff, List.filter_eq_nil_iff]
    constructor
    · intro hall r hr
      have := hall r hr
      simpa using this
    · intro hall r hr
      simp [hall r hr]
  constructor
  · rw [hval]
    by_cases hfe : (ts.filter hasText).isEmpty = true
    · rw [if_pos hfe]
      simpa using hiff.mp hfe
    · rw [if_neg hfe]
      constructor
      · intro hcon
        simp at hcon
      · intro hall
        exact absurd (hiff.mpr hall) hfe
  · have hsort : sortBatch [(⟨run_ids, text, subset_text⟩ : CommentReq)] =
        [⟨run_ids, text, subset_text⟩] :=
      List.perm_singleton.mp (List.mergeSort_perm _ _)
    have hbatch : add_comments_batch attachOk d [⟨run_ids, text, subset_text⟩] author initials =
        processAll attachOk d author initials [⟨run_ids, text, subset_text⟩] := by
      simp only [add_comments_batch, hsort]
      rfl
    rw [hbatch]
    simp only [processAll, hval]
    by_cases hfe : (ts.filter hasText).isEmpty = true
    · rw [if_pos hfe, if_pos (hiff.mp hfe)]
      simp
    · rw [if_neg hfe, if_neg (fun hall => absurd (hiff.mpr hall) hfe)]
      simp

/-- Witness for C6 at a concrete input: a request over the single run
`" "` (whitespace only) fails, and a singleton batch records it as
`(0, 1)`. -/
theorem c6_empty_target_exactly_when_all_blank_witness :
    (normalizeIds (Sum.inl 0)).isEmpty = false ∧
    ¬(isTruthy (none : Option (List Char)) = true ∧ 1 < (normalizeIds (Sum.inl 0)).length) ∧
    resolveTargets dW6 (normalizeIds (Sum.inl 0)) (none : Option (List Char)) =
      some (dW6, [⟨none, some ⟨[' '], true⟩⟩]) ∧
    (((add_comment attachOk dW6 (Sum.inl 0) [] none [] []).2 = false ↔
        ∀ r ∈ ([⟨none, some ⟨[' '], true⟩⟩] : List RunE), hasText r = false) ∧
      (add_comments_batch attachOk dW6 [⟨Sum.inl 0, [], none⟩] [] []).2 =
        (if ∀ r ∈ ([⟨none, some ⟨[' '], true⟩⟩] : List RunE), hasText r = false
         then (0, 1) else (1, 0))) := by
  have hres : resolveTargets dW6 (normalizeIds (Sum.inl 0)) (none : Option (List Char)) =
      some (dW6, [⟨none, some ⟨[' '], true⟩⟩]) := by
    simp [resolveTargets, find_run_by_global_id, lookupRun, commenterRuns,
      iterDocParagraphsC, yieldRunsC, concatMap, dW6, isTruthy, normalizeIds]
  exact ⟨by decide, by decide, hres,
    c6_empty_target_exactly_when_all_blank dW6 (Sum.inl 0) [] none [] [] dW6 _
      (by decide) (by decide) hres⟩

theorem resolveTargets_no_subset_doc (subset_text : Option (List Char))
    (hns : isTruthy subset_text = false) (ids : List Nat) :
    ∀ (d d1 : Doc) (ts : List RunE), resolveTargets d ids subset_text = some (d1, ts) → d1 = d := by
  induction ids with
  | nil =>
      intro d d1 ts h
      simp only [resolveTargets] at h
      injection h with h1
      injection h1 with hd hts
      exact hd.symm
  | cons id rest ih =>
      intro d d1 ts h
      simp only [resolveTargets, hns] at h
      cases hf : find_run_by_global_id d id with
      | none => rw [hf] at h; exact absurd h (by simp)
      | some rb =>
          rw [hf] at h
          simp only [Bool.false_eq_true, if_false, Option.map_eq_some'] at h
          obtain ⟨pr, hpr, heq⟩ := h
          injection heq with hd hts
          rw [← hd]
          exact ih d pr.1 pr.2 (by rw [hpr])

/-- C5, counterexample: the request `{run_ids: 0, subset_text: " "}` on the
one-run document `"a b"` fails (the isolated target `" "` is filtered out
as whitespace-only), yet the document tree has been mutated: the split
fragments remain, the run count goes from 1 to 3, and the tree differs
from the original — contradicting the claim that every failed request
leaves the tree unchanged. -/
theorem c5_failed_request_leaves_split_counterexample :
    (add_comment attachOk dC5 (Sum.inl 0) [] (some [' ']) [] []).2 = false ∧
    (commenterRuns (add_comment attachOk dC5 (Sum.inl 0) [] (some [' ']) [] []).1).length = 3 ∧
    (commenterRuns dC5).length = 1 ∧
    (add_comment attachOk dC5 (Sum.inl 0) [] (some [' ']) [] []).1 ≠ dC5 := by
  have hval : add_comment attachOk dC5 (Sum.inl 0) [] (some [' ']) [] [] =
      ([Block.p [Inline.run ⟨none, some ⟨['a'], true⟩⟩, Inline.run ⟨none, some ⟨[' '], true⟩⟩,
        Inline.run ⟨none, some ⟨['b'], true⟩⟩]], false) := by
    simp [add_comment, resolveTargets, find_run_by_global_id, lookupRun, commenterRuns,
      iterDocParagraphsC, yieldRunsC, concatMap, dC5, isTruthy, normalizeIds, splitDocAt,
      splitBlocksLoc, splitRunsInlines, split_run_at_text, strFind, lowerStr, runText,
      List.isPrefixOf, hasText, attachOk, directRuns]
  rw [hval]
  refine ⟨rfl, ?_, ?_, ?_⟩
  · simp [commenterRuns, iterDocParagraphsC, yieldRunsC, concatMap]
  · simp [commenterRuns, iterDocParagraphsC, yieldRunsC, concatMap, dC5]
  · simp [dC5]

/-- C5 (amended): a request that fails before any split mutation — empty
`run_ids`, a sub-string request over several runs, a run not found, or the
sub-string absent — leaves the document unchanged; but a request that
fails after a successful split (every target filtered out as empty, or the
attachment capability raising) leaves exactly the split mutation in the
tree.  Formally: on failure the resulting document is either the original
or the result of the single in-place split of the request's one run. -/
theorem c5_failed_request_tree_state (attach : Attach) (d : Doc) (run_ids : Sum Nat (List Nat))
    (text : List Char) (subset_text : Option (List Char)) (author initials : List Char)
    (hfail : (add_comment attach d run_ids text subset_text author initials).2 = false) :
    (add_comment attach d run_ids text subset_text author initials).1 = d ∨
    ∃ id tg, normalizeIds run_ids = [id] ∧ isTruthy subset_text = true ∧
      splitDocAt d id (subset_text.getD []) =
        some ((add_comment attach d run_ids text subset_text author initials).1, tg) := by
  by_cases h1 : (normalizeIds run_ids).isEmpty = true
  · left
    simp [add_comment, h1]
  by_cases h2 : isTruthy subset_text = true ∧ 1 < (normalizeIds run_ids).length
  · left
    simp [add_comment, h1, h2]
  cases hres : resolveTargets d (normalizeIds run_ids) subset_text with
  | none =>
      left
      simp [add_comment, h1, h2, hres]
  | some pr =>
      obtain ⟨d1, ts⟩ := pr
      have hd1 : (add_comment attach d run_ids text subset_text author initials).1 = d1 := by
        have hsplit : (add_comment attach d run_ids text subset_text author initials).1 = d1 ∨
            (add_comment attach d run_ids text subset_text author initials).2 = true := by
          simp only [add_comment, hres]
          rw [if_neg (by simp [h1]), if_neg h2]
          by_cases hfe : (ts.filter hasText).isEmpty = true
          · rw [if_pos hfe]
            left
            rfl
          · rw [if_neg hfe]
            cases hat : attach d1 (ts.filter hasText) text author initials
            · left
              rfl
            · right
              rfl
        rcases hsplit with h | h
        · exact h
        · rw [hfail] at h
          exact absurd h (by simp)
      by_cases hsub : isTruthy subset_text = true
      · right
        have hlen : ¬ 1 < (normalizeIds run_ids).length := fun hl => h2 ⟨hsub, hl⟩
        obtain ⟨id, hid⟩ : ∃ id, normalizeIds run_ids = [id] := by
          cases hids : normalizeIds run_ids with
          | nil => rw [hids] at h1; exact absurd (by simp) h1
          | cons a rest =>
              cases rest with
              | nil => exact ⟨a, rfl⟩
              | cons b r2 =>
                  rw [hids] at hlen
                  exfalso
                  apply hlen
                  simp
        rw [hid] at hres
        simp only [resolveTargets, hsub, if_true] at hres
        cases hf : find_run_by_global_id d id with
        | none => rw [hf] at hres; exact absurd hres (by simp)
        | some rb =>
            rw [hf] at hres
            cases hsd : splitDocAt d id (subset_text.getD []) with
            | none => rw [hsd] at hres; exact absurd hres (by simp)
            | some dtg =>
                obtain ⟨d', tg⟩ := dtg
                rw [hsd] at hres
                simp only [resolveTargets, Option.map_some'] at hres
                injection hres with hres1
                injection hres1 with hd hts
                refine ⟨id, tg, hid, hsub, ?_⟩
                rw [hd1, ← hd]
                exact hsd
      · left
        rw [hd1]
        exact resolveTargets_no_subset_doc subset_text (by simpa using hsub)
          (normalizeIds run_ids) d d1 ts hres

/-- Witness for C5 (amended) at a concrete input: the failing whitespace
request on `dC5` falls into the split-mutation disjunct. -/
theorem c5_failed_request_tree_state_witness :
    (add_comment attachOk dC5 (Sum.inl 0) [] (some [' ']) [] []).2 = false ∧
    ((add_comment attachOk dC5 (Sum.inl 0) [] (some [' ']) [] []).1 = dC5 ∨
     ∃ id tg, normalizeIds (Sum.inl 0) = [id] ∧ isTruthy (some [' ']) = true ∧
       splitDocAt dC5 id ((some [' ']).getD []) =
         some ((add_comment attachOk dC5 (Sum.inl 0) [] (some [' ']) [] []).1, tg)) := by
  have hfail : (add_comment attachOk dC5 (Sum.inl 0) [] (some [' ']) [] []).2 = false := by
    simp [add_comment, resolveTargets, find_run_by_global_id, lookupRun, commenterRuns,
      iterDocParagraphsC, yieldRunsC, concatMap, dC5, isTruthy, normalizeIds, splitDocAt,
      splitBlocksLoc, splitRunsInlines, split_run_at_text, strFind, lowerStr, runText,
      List.isPrefixOf, hasText, attachOk, directRuns]
  exact ⟨hfail, c5_failed_request_tree_state attachOk dC5 (Sum.inl 0) [] (some [' ']) [] [] hfail⟩

theorem processAll_sum (attach : Attach) (author initials : List Char) :
    ∀ (cs : List CommentReq) (d : Doc),
    (processAll attach d author initials cs).2.1 +
      (processAll attach d author initials cs).2.2 = cs.length := by
  intro cs
  induction cs with
  | nil => intro d; simp [processAll]
  | cons c cs ih =>
      intro d
      have hih := ih (add_comment attach d c.run_ids c.text c.subset_text author initials).1
      simp only [processAll]
      cases hok : (add_comment attach d c.run_ids c.text c.subset_text author initials).2 <;>
        simp [hok] <;> omega

/-- C7: errors are resolved at single-request granularity — an exception
of the external attachment capability is caught inside `add_comment`
(modelled as the capability returning `none`, turned into a `false`
result), no request's failure aborts the batch, and for every batch of
well-formed comment requests and every attachment behaviour,
`add_comments_batch` returns a `(successes, failures)` pair whose
components sum to the number of requests. -/
theorem c7_batch_counts_sum (attach : Attach) (d : Doc) (comments : List CommentReq)
    (author initials : List Char)
    (hwf : ∀ c ∈ comments, ∀ l, c.run_ids = Sum.inr l → l ≠ []) :
    (add_comments_batch attach d comments author initials).2.1 +
      (add_comments_batch attach d comments author initials).2.2 = comments.length := by
  by_cases hemp : comments.isEmpty = true
  · have hnil : comments = [] := List.isEmpty_iff.mp hemp
    subst hnil
    simp [add_comments_batch]
  · simp only [add_comments_batch, hemp, Bool.false_eq_true, if_false]
    rw [processAll_sum]
    exact List.length_mergeSort comments

/-- Witness for C7 at a concrete input: a three-request batch (all
requests well formed) against an attachment capability that always
succeeds sums to 3. -/
theorem c7_batch_counts_sum_witness :
    (∀ c ∈ csW4, ∀ l, c.run_ids = Sum.inr l → l ≠ []) ∧
    (add_comments_batch attachOk dW6 csW4 [] []).2.1 +
      (add_comments_batch attachOk dW6 csW4 [] []).2.2 = csW4.length := by
  have hwf : ∀ c ∈ csW4, ∀ l, c.run_ids = Sum.inr l → l ≠ [] := by
    intro c hc l hl he
    subst he
    fin_cases hc <;> simp [reqA, reqB, reqC] at hl
  exact ⟨hwf, c7_batch_counts_sum attachOk dW6 csW4 [] [] hwf⟩

theorem tupleLe_trans (p q r : Int × Int) (hpq : tupleLe p q = true) (hqr : tupleLe q r = true) :
    tupleLe p r = true := by
  simp only [tupleLe, decide_eq_true_eq] at *
  rcases hpq with h | ⟨h1, h2⟩ <;> rcases hqr with h' | ⟨h1', h2'⟩
  · left; omega
  · left; omega
  · left; omega
  · right; exact ⟨by omega, by omega⟩

theorem tupleLe_total (p q : Int × Int) : (tupleLe p q || tupleLe q p) = true := by
  simp only [tupleLe, Bool.or_eq_true, decide_eq_true_eq]
  rcases lt_trichotomy p.1 q.1 with h | h | h
  · left; left; exact h
  · rcases le_total p.2 q.2 with h2 | h2
    · left; right; exact ⟨h, h2⟩
    · right; right; exact ⟨h.symm, h2⟩
  · right; left; exact h

theorem tupleLe_mk (x1 x2 y1 y2 : Int) :
    tupleLe (x1, x2) (y1, y2) = true ↔ (x1 < y1 ∨ (x1 = y1 ∧ x2 ≤ y2)) := by
  simp [tupleLe]

theorem sort_key_le_spec (a b : CommentReq)
    (h : tupleLe (sort_key a) (sort_key b) = true) :
    maxId a > maxId b ∨ (maxId a = maxId b ∧
      (isTruthy b.subset_text = true → isTruthy a.subset_text = true)) := by
  unfold sort_key at h
  rw [tupleLe_mk] at h
  rcases h with h | ⟨h1, h2⟩
  · left
    omega
  · right
    refine ⟨by omega, ?_⟩
    intro hb
    rw [hb] at h2
    by_cases ha : isTruthy a.subset_text = true
    · exact ha
    · exfalso
      rw [if_neg ha, if_pos rfl] at h2
      omega

/-- C4: `add_comments_batch` applies requests in the order obtained by
sorting on descending maximum referenced run ID, and among requests tying
on that maximum, one carrying a (truthy) sub-string split strictly before
one that does not; the applied sequence is a permutation of the batch, so
every request is applied exactly once, in exactly that order. -/
theorem c4_scheduler_order (comments : List CommentReq)
    (hwf : ∀ c ∈ comments, ∀ l, c.run_ids = Sum.inr l → l ≠ []) (hne : comments ≠ []) :
    (sortBatch comments).Perm comments ∧
    List.Pairwise (fun a b => maxId a > maxId b ∨ (maxId a = maxId b ∧
      (isTruthy b.subset_text = true → isTruthy a.subset_text = true))) (sortBatch comments) ∧
    ∀ (attach : Attach) (d : Doc) (author initials : List Char),
      add_comments_batch attach d comments author initials =
        processAll attach d author initials (sortBatch comments) := by
  refine ⟨List.mergeSort_perm comments _, ?_, ?_⟩
  · have hsorted := @List.sorted_mergeSort CommentReq
      (fun a b => tupleLe (sort_key a) (sort_key b))
      (fun a b c => tupleLe_trans (sort_key a) (sort_key b) (sort_key c))
      (fun a b => tupleLe_total (sort_key a) (sort_key b))
      comments
    exact List.Pairwise.imp (fun h => sort_key_le_spec _ _ h) hsorted
  · intro attach d author initials
    simp only [add_comments_batch, sortBatch]
    rw [if_neg (by simp [List.isEmpty_iff, hne])]

/-- Witness for C4 at a concrete input: the batch `[range 3-4, whole-run 5,
split 5]` is rescheduled as a permutation sorted by descending max ID with
the split request first among the max-ID-5 ties. -/
theorem c4_scheduler_order_witness :
    (∀ c ∈ csW4, ∀ l, c.run_ids = Sum.inr l → l ≠ []) ∧ csW4 ≠ [] ∧
    ((sortBatch csW4).Perm csW4 ∧
     List.Pairwise (fun a b => maxId a > maxId b ∨ (maxId a = maxId b ∧
       (isTruthy b.subset_text = true → isTruthy a.subset_text = true))) (sortBatch csW4) ∧
     ∀ (attach : Attach) (d : Doc) (author initials : List Char),
       add_comments_batch attach d csW4 author initials =
         processAll attach d author initials (sortBatch csW4)) := by
  have hwf : ∀ c ∈ csW4, ∀ l, c.run_ids = Sum.inr l → l ≠ [] := by
    intro c hc l hl he
    subst he
    fin_cases hc <;> simp [reqA, reqB, reqC] at hl
  have hne : csW4 ≠ [] := by simp [csW4]
  exact ⟨hwf, hne, c4_scheduler_order csW4 hwf hne⟩

theorem splitLastChar_not_mem (c : Char) (l : List Char) (h : c ∉ l) :
    splitLastChar c l = none := by
  induction l with
  | nil => rfl
  | cons x xs ih =>
      have hx : ¬ x = c := fun he => h (by simp [he])
      have hxs : c ∉ xs := fun hm => h (List.mem_cons_of_mem x hm)
      simp [splitLastChar, ih hxs, hx]

theorem splitLastChar_append (c : Char) (a b : List Char) (hb : c ∉ b) :
    splitLastChar c (a ++ c :: b) = some (a, b) := by
  induction a with
  | nil => simp [splitLastChar, splitLastChar_not_mem c b hb]
  | cons x a ih => simp [splitLastChar, ih]

/-- C9, counterexample: for the source path `"docs/report.docm"` the saved
filename is `"docs/report - claude commented.docx"` — the `.docx`
extension is hard-coded in the format string — and not
`"docs/report - claude commented.docm"` with the original file extension,
as the claim states. -/
theorem c9_extension_not_preserved_counterexample :
    save_with_suffix pDocm default_suffix =
      ['d', 'o', 'c', 's', '/', 'r', 'e', 'p', 'o', 'r', 't', ' ', '-', ' ',
       'c', 'l', 'a', 'u', 'd', 'e', ' ', 'c', 'o', 'm', 'm', 'e', 'n', 't', 'e', 'd',
       '.', 'd', 'o', 'c', 'x'] ∧
    save_with_suffix pDocm default_suffix ≠
      ['d', 'o', 'c', 's', '/', 'r', 'e', 'p', 'o', 'r', 't', ' ', '-', ' ',
       'c', 'l', 'a', 'u', 'd', 'e', ' ', 'c', 'o', 'm', 'm', 'e', 'n', 't', 'e', 'd',
       '.', 'd', 'o', 'c', 'm'] := by
  constructor <;> decide

/-- C9 (amended): for every source path `dir/stem.ext` (directory without
trailing slash, stem and extension non-empty and free of `/` and `.`),
`save_with_suffix` derives the output path in the original directory with
filename `stem` + `" - claude commented"` + the hard-coded `".docx"`
extension, regardless of the original extension; the source package itself
is not written to. -/
theorem c9_derived_filename (dir stem ext : List Char)
    (hdir : dir ≠ [] ∧ dir.getLast? ≠ some '/')
    (hstem : stem ≠ [] ∧ '/' ∉ stem ∧ '.' ∉ stem)
    (hext : ext ≠ [] ∧ '/' ∉ ext ∧ '.' ∉ ext) :
    save_with_suffix (dir ++ '/' :: (stem ++ '.' :: ext)) default_suffix =
      pyJoin dir (stem ++ [' ', '-', ' '] ++ default_suffix ++ dotDocx) := by
  have hsl : '/' ∉ stem ++ '.' :: ext := by
    intro hmem
    rcases List.mem_append.mp hmem with hm | hm
    · exact hstem.2.1 hm
    · rcases List.mem_cons.mp hm with he | hm2
      · exact absurd he (by decide)
      · exact hext.2.1 hm2
  have h1 : splitLastChar '/' (dir ++ '/' :: (stem ++ '.' :: ext)) =
      some (dir, stem ++ '.' :: ext) := splitLastChar_append _ _ _ hsl
  have h2 : splitLastChar '.' (stem ++ '.' :: ext) = some (stem, ext) :=
    splitLastChar_append _ _ _ hext.2.2
  simp only [save_with_suffix, pyBasename, pyParent, pyStem, h1, h2]
  rw [if_neg (by simp [List.isEmpty_iff, hdir.1]),
    if_neg (by simp [List.isEmpty_iff, hstem.1, hext.1])]

/-- Witness for C9 (amended) at a concrete input: the path
`"docs/report.docx"` produces `"docs/report - claude commented.docx"`. -/
theorem c9_derived_filename_witness :
    ((['d', 'o', 'c', 's'] : List Char) ≠ [] ∧
      (['d', 'o', 'c', 's'] : List Char).getLast? ≠ some '/') ∧
    ((['r', 'e', 'p', 'o', 'r', 't'] : List Char) ≠ [] ∧
      '/' ∉ (['r', 'e', 'p', 'o', 'r', 't'] : List Char) ∧
      '.' ∉ (['r', 'e', 'p', 'o', 'r', 't'] : List Char)) ∧
    ((['d', 'o', 'c', 'x'] : List Char) ≠ [] ∧
      '/' ∉ (['d', 'o', 'c', 'x'] : List Char) ∧ '.' ∉ (['d', 'o', 'c', 'x'] : List Char)) ∧
    save_with_suffix
        (['d', 'o', 'c', 's'] ++ '/' :: (['r', 'e', 'p', 'o', 'r', 't'] ++ '.' :: ['d', 'o', 'c', 'x']))
        default_suffix =
      pyJoin ['d', 'o', 'c', 's']
        (['r', 'e', 'p', 'o', 'r', 't'] ++ [' ', '-', ' '] ++ default_suffix ++ dotDocx) :=
  ⟨by decide, by decide, by decide,
    c9_derived_filename ['d', 'o', 'c', 's'] ['r', 'e', 'p', 'o', 'r', 't'] ['d', 'o', 'c', 'x']
      (by decide) (by decide) (by decide)⟩
